import Mathlib

/-!
CLIpper tab completion (`ui/cmdinput/autocomplete.go`).

A shallow embedding of the tab-completion engine and the properties of its
specification.

Modelling conventions.

* A Go `string` is a list of characters (`Str`).  Offsets and lengths count
  characters; for ASCII text these are exactly Go's byte offsets, and the
  lexicographic order on character codes is Go's byte order on UTF-8 text.
* A Go `map` is an association list with distinct keys.  `mapSet` is the
  assignment `m[k] = v`, `mapGet` the comma-ok lookup; the list order stands
  for one enumeration order of the map.
* A function that can panic at run time (slice out of range, nil
  dereference, method call on a nil interface) returns `Option`, `none`
  being the panic.
* Functions that mutate the `CommandContext` or the `TabCompleter` return
  the new value next to their Go results.
* The libraries the file imports (`shlex`, `tcell`, `path/filepath`) and the
  constant `AutocompletedNavigate`, declared outside this file, are the
  fields of `Env`.
-/

namespace Clipper

/-- A Go string. -/
abbrev Str := List Char

/-! ## Go maps -/

/-- The lookup `v, ok := m[k]`. -/
def mapGet {V : Type} : List (Str × V) → Str → Option V
  | [], _ => none
  | (k', v) :: m, k => if k' = k then some v else mapGet m k

/-- The assignment `m[k] = v`. -/
def mapSet {V : Type} : List (Str × V) → Str → V → List (Str × V)
  | [], k, v => [(k, v)]
  | (k', v') :: m, k, v => if k' = k then (k', v) :: m else (k', v') :: mapSet m k v

/-- The keys of a map, as `for k := range m` enumerates them. -/
def mapKeys {V : Type} (m : List (Str × V)) : List Str := m.map Prod.fst

/-! ## Library functions of `strings` and `sort` -/

/-- Go's `unicode.ToLower` on one rune, followed on the ASCII range: `A`-`Z`
go to `a`-`z`, every other rune is left as it is.  Only the evaluations at
concrete tokens depend on its values. -/
def runeToLower (c : Char) : Char := c.toLower

/-- Go's `strings.ToLower`: the rune-wise lower-casing of a string. -/
def ToLower (s : Str) : Str := s.map runeToLower

/-- Go's `strings.HasPrefix`. -/
def HasPrefix (s pre : Str) : Bool := pre.isPrefixOf s

/-- Go's `strings.HasSuffix`. -/
def HasSuffix (s suf : Str) : Bool := suf.isSuffixOf s

/-- Go's `strings.LastIndex`: the index of the last occurrence of `sub` in
`s`, or `-1` when there is none. -/
def LastIndex : Str → Str → Int
  | [], sub => if sub = [] then 0 else -1
  | c :: cs, sub =>
    let r := LastIndex cs sub
    if 0 ≤ r then r + 1
    else if HasPrefix (c :: cs) sub then 0 else -1

/-- Go's `sort.Strings`: ascending lexicographic order. -/
def sortStrings (l : List Str) : List Str := l.insertionSort (· ≤ ·)

/-- The slice `s[:n]`, which panics when `n` is out of range. -/
def sliceTo (s : Str) (n : Int) : Option Str :=
  if 0 ≤ n ∧ n ≤ s.length then some (s.take n.toNat) else none

/-- The slice `s[n:]`, which panics when `n` is out of range. -/
def sliceFrom (s : Str) (n : Int) : Option Str :=
  if 0 ≤ n ∧ n ≤ s.length then some (s.drop n.toNat) else none

/-! ## Data model -/

/-- The values the matchers store in a `CommandContext`
(`map[string]interface{}`).  A stored `Command` is represented by its
identity. -/
inductive CtxVal where
  | command (id : Nat)
  | str (s : Str)
  | bool (b : Bool)
  | color (c : Int)
  deriving DecidableEq, Repr

/-- The type `CommandContext`. -/
abbrev CommandContext := List (Str × CtxVal)

mutual
/-- The interface `Command`, reduced to what the completion engine uses: the
identity of the value and its method `GetCompleter`. -/
inductive Command where
  | mk (id : Nat) (GetCompleter : CommandContext → Option TokenCompleter)

/-- The five implementations of the interface `TokenCompleter`.  A nil
interface value is `none : Option TokenCompleter`. -/
inductive TokenCompleter where
  | command (ContextKey : Str) (Registry : List (Str × Command)) (caseMap : List (Str × Str))
  | static (ContextKey : Str) (Registry : List (Str × Option TokenCompleter))
  | bool (ContextKey : Str) (Next : Option TokenCompleter)
  | color (ContextKey : Str) (Next : Option TokenCompleter)
  | file (ContextKey : Str) (Next : Option TokenCompleter)
end

/-- The identity of a command value. -/
def Command.id : Command → Nat
  | .mk i _ => i

/-- The method `GetCompleter` of a command. -/
def Command.GetCompleter : Command → CommandContext → Option TokenCompleter
  | .mk _ g => g

/-- The result of `Match`: the three Go results and the context after the
call.  `next` is a pointer to an interface value: `none` is the nil pointer,
`some none` a pointer to a nil `TokenCompleter`. -/
structure MatchResult where
  ok : Bool
  token : Str
  next : Option (Option TokenCompleter)
  ctx : CommandContext

/-- The struct `CompletionState`. -/
structure CompletionState where
  RawText : Str
  CursorPos : Int
  tokens : List Str

/-- The struct `CommandTokenCompleter`. -/
structure CommandTokenCompleter where
  ContextKey : Str
  Registry : List (Str × Command)
  caseMap : List (Str × Str)

/-- The struct `TabCompleter`. -/
structure TabCompleter where
  completer : CommandTokenCompleter
  completionState : CompletionState

/-- A `CommandTokenCompleter` used as a `TokenCompleter`. -/
def CommandTokenCompleter.toTokenCompleter (c : CommandTokenCompleter) : TokenCompleter :=
  .command c.ContextKey c.Registry c.caseMap

/-- What the engine takes from outside `autocomplete.go`. -/
structure Env where
  /-- The tokenizer `shlex.Split`: the tokens and the error (`none` is nil). -/
  Split : Str → List Str × Option Str
  /-- The value of `tcell.GetColor`. -/
  GetColor : Str → Int
  /-- The sentinel `tcell.ColorDefault`. -/
  ColorDefault : Int
  /-- The keys of `tcell.ColorNames`, in the order the map enumerates them. -/
  ColorNames : List Str
  /-- The predicate `filepath.IsLocal`. -/
  IsLocal : Str → Bool
  /-- The function `filepath.Clean`. -/
  Clean : Str → Str
  /-- The matches of `filepath.Glob` (empty when it fails). -/
  Glob : Str → List Str
  /-- The constant `AutocompletedNavigate`. -/
  AutocompletedNavigate : Int

/-! ## The tokenizer

`shlex.Split` is an external library.  The engine is parametric in it
(`Env.Split`); `shlexSplit` is the instance used for concrete inputs. -/

/-- Modelled from the spec: the classes of runes the external tokenizer
distinguishes. -/
inductive RuneClass where
  | unknown | space | escapingQuote | nonEscapingQuote | escape | comment
  deriving DecidableEq, Repr

/-- Modelled from the spec: the states of the external tokenizer. -/
inductive LexState where
  | start | inWord | escaping | escapingQuoted | quotingEscaping | quoting | comment
  deriving DecidableEq, Repr

/-- Modelled from the spec: the state of a scan of the external tokenizer:
the automaton state, the runes of the token being read, and the words read
so far. -/
structure Lexer where
  state : LexState
  value : Str
  words : List Str
  deriving DecidableEq, Repr

/-- Modelled from the spec: the external tokenizer before the first rune. -/
def lexInit : Lexer := { state := .start, value := [], words := [] }

/-- Modelled from the spec: the rune classes of the external tokenizer
(`github.com/google/shlex`, not among the sources): blank, tab, carriage
return and newline separate tokens, the double quote quotes with escapes,
the single quote quotes without, the backslash escapes, `#` starts a
comment. -/
def classifyRune (c : Char) : RuneClass :=
  if c = ' ' ∨ c = '\t' ∨ c = '\r' ∨ c = '\n' then .space
  else if c = '"' then .escapingQuote
  else if c = '\'' then .nonEscapingQuote
  else if c = '\\' then .escape
  else if c = '#' then .comment
  else .unknown

/-- Modelled from the spec: one rune of input to the external tokenizer (§6:
whitespace-separated tokens, quoted tokens containing whitespace), following
the POSIX-like state machine of `github.com/google/shlex`. -/
def lexStep (l : Lexer) (c : Char) : Lexer :=
  match l.state with
  | .start =>
    match classifyRune c with
    | .space => l
    | .escapingQuote => { l with state := .quotingEscaping }
    | .nonEscapingQuote => { l with state := .quoting }
    | .escape => { l with state := .escaping }
    | .comment => { l with state := .comment }
    | .unknown => { l with state := .inWord, value := l.value ++ [c] }
  | .inWord =>
    match classifyRune c with
    | .space => { state := .start, value := [], words := l.words ++ [l.value] }
    | .escapingQuote => { l with state := .quotingEscaping }
    | .nonEscapingQuote => { l with state := .quoting }
    | .escape => { l with state := .escaping }
    | _ => { l with value := l.value ++ [c] }
  | .escaping => { l with state := .inWord, value := l.value ++ [c] }
  | .escapingQuoted => { l with state := .quotingEscaping, value := l.value ++ [c] }
  | .quotingEscaping =>
    match classifyRune c with
    | .escapingQuote => { l with state := .inWord }
    | .escape => { l with state := .escapingQuoted }
    | _ => { l with value := l.value ++ [c] }
  | .quoting =>
    match classifyRune c with
    | .nonEscapingQuote => { l with state := .inWord }
    | _ => { l with value := l.value ++ [c] }
  | .comment =>
    if c = '\n' then { l with state := .start, value := [] } else l

/-- Modelled from the spec: the end of input in the external tokenizer: a
word in progress is completed, an open quote or a dangling escape is the
quoting error (§2: "fails on malformed quoting"), which `Split` returns
together with the words read before it. -/
def lexEOF (l : Lexer) : List Str × Option Str :=
  match l.state with
  | .start => (l.words, none)
  | .inWord => (l.words ++ [l.value], none)
  | .comment => (l.words, none)
  | .escaping => (l.words, some "EOF found after escape character".toList)
  | .escapingQuoted => (l.words, some "EOF found after escape character".toList)
  | .quotingEscaping => (l.words, some "EOF found when expecting closing quote".toList)
  | .quoting => (l.words, some "EOF found when expecting closing quote".toList)

/-- Modelled from the spec: the external tokenizer `shlex.Split`. -/
def shlexSplit (s : Str) : List Str × Option Str :=
  lexEOF (s.foldl lexStep lexInit)

/-! ## Token completers -/

/-- The body of the loop shared by the `Complete` methods: a name that has
the lower-cased token as a prefix is appended (as `value name`) to the
results, and sets the match flag when it equals the token. -/
def completeStep (lowerToken : Str) (value : Str → Str) (acc : List Str × Bool) (name : Str) :
    List Str × Bool :=
  if HasPrefix name lowerToken then
    (acc.1 ++ [value name], if name = lowerToken then true else acc.2)
  else acc

/-- The method `CommandTokenCompleter.Match`. -/
def CommandTokenCompleter.Match (c : CommandTokenCompleter) (token : Str)
    (ctx : CommandContext) : Option MatchResult :=
  match mapGet c.caseMap (ToLower token) with
  | none => some { ok := false, token := [], next := none, ctx := ctx }
  | some key =>
    match mapGet c.Registry key with
    | none => none
    | some cmd =>
      let ctx1 := mapSet ctx c.ContextKey (.command cmd.id)
      some { ok := true, token := token, next := some (cmd.GetCompleter ctx1), ctx := ctx1 }

/-- The method `CommandTokenCompleter.Complete`. -/
def CommandTokenCompleter.Complete (c : CommandTokenCompleter) (token : Str)
    (_ctx : CommandContext) : List Str × Bool :=
  let lowerToken := ToLower token
  let sortedKeys := sortStrings (mapKeys c.caseMap)
  sortedKeys.foldl (completeStep lowerToken (fun k => (mapGet c.caseMap k).getD [])) ([], false)

/-- The method `StaticTokenCompleter.buildCaseMap`. -/
def StaticTokenCompleter.buildCaseMap (Registry : List (Str × Option TokenCompleter)) :
    List (Str × Str) :=
  (mapKeys Registry).foldl (fun m k => mapSet m (ToLower k) k) []

/-- The method `StaticTokenCompleter.Match`. -/
def StaticTokenCompleter.Match (ContextKey : Str) (Registry : List (Str × Option TokenCompleter))
    (token : Str) (ctx : CommandContext) : MatchResult :=
  let caseMap := StaticTokenCompleter.buildCaseMap Registry
  match mapGet caseMap (ToLower token) with
  | none => { ok := false, token := [], next := none, ctx := ctx }
  | some normalizedName =>
    { ok := true, token := normalizedName,
      next := some ((mapGet Registry normalizedName).getD none),
      ctx := mapSet ctx ContextKey (.str normalizedName) }

/-- The method `StaticTokenCompleter.Complete`. -/
def StaticTokenCompleter.Complete (Registry : List (Str × Option TokenCompleter)) (token : Str)
    (_ctx : CommandContext) : List Str × Bool :=
  let lowerToken := ToLower token
  let caseMap := StaticTokenCompleter.buildCaseMap Registry
  let sortedKeys := sortStrings (mapKeys caseMap)
  sortedKeys.foldl (completeStep lowerToken (fun k => (mapGet caseMap k).getD [])) ([], false)

/-- The method `BoolTokenCompleter.Match`. -/
def BoolTokenCompleter.Match (ContextKey : Str) (Next : Option TokenCompleter) (token : Str)
    (ctx : CommandContext) : MatchResult :=
  let t := ToLower token
  let ctx1 :=
    if t = "true".toList then mapSet ctx ContextKey (.bool true)
    else if t = "false".toList then mapSet ctx ContextKey (.bool false)
    else ctx
  { ok := true, token := t, next := some Next, ctx := ctx1 }

/-- The method `BoolTokenCompleter.Complete`. -/
def BoolTokenCompleter.Complete (token : Str) (_ctx : CommandContext) : List Str × Bool :=
  let lowerToken := ToLower token
  ["false".toList, "true".toList].foldl (completeStep lowerToken (fun lower => lower)) ([], false)

/-- The method `ColorTokenCompleter.Match`. -/
def ColorTokenCompleter.Match (env : Env) (ContextKey : Str) (Next : Option TokenCompleter)
    (token : Str) (ctx : CommandContext) : MatchResult :=
  let color := env.GetColor token
  if color = env.ColorDefault then { ok := false, token := [], next := none, ctx := ctx }
  else { ok := true, token := token, next := some Next, ctx := mapSet ctx ContextKey (.color color) }

/-- The method `ColorTokenCompleter.Complete`. -/
def ColorTokenCompleter.Complete (env : Env) (token : Str) (_ctx : CommandContext) :
    List Str × Bool :=
  let lowerToken := ToLower token
  let sortedKeys := env.ColorNames
  sortedKeys.foldl (completeStep lowerToken (fun colorName => colorName)) ([], false)

/-- The method `FileTokenCompleter.Match`. -/
def FileTokenCompleter.Match (ContextKey : Str) (Next : Option TokenCompleter) (token : Str)
    (ctx : CommandContext) : MatchResult :=
  { ok := true, token := token, next := some Next, ctx := mapSet ctx ContextKey (.str token) }

/-- The call `strings.ReplaceAll(s, " ", "\\ ")`. -/
def escapeSpaces (s : Str) : Str :=
  s.flatMap (fun c => if c = ' ' then ['\\', ' '] else [c])

/-- The method `FileTokenCompleter.Complete`. -/
def FileTokenCompleter.Complete (env : Env) (token : Str) (_ctx : CommandContext) :
    List Str × Bool :=
  let pattern := if env.IsLocal token then env.Clean token else token
  let globbed := env.Glob (pattern ++ ['*'])
  (globbed.map escapeSpaces, false)

/-- The interface method `TokenCompleter.Match`, dispatched on the
implementation. -/
def TokenCompleter.Match (env : Env) (c : TokenCompleter) (token : Str) (ctx : CommandContext) :
    Option MatchResult :=
  match c with
  | .command key reg cm =>
    CommandTokenCompleter.Match { ContextKey := key, Registry := reg, caseMap := cm } token ctx
  | .static key reg => some (StaticTokenCompleter.Match key reg token ctx)
  | .bool key nxt => some (BoolTokenCompleter.Match key nxt token ctx)
  | .color key nxt => some (ColorTokenCompleter.Match env key nxt token ctx)
  | .file key nxt => some (FileTokenCompleter.Match key nxt token ctx)

/-- The interface method `TokenCompleter.Complete`, dispatched on the
implementation. -/
def TokenCompleter.Complete (env : Env) (c : TokenCompleter) (token : Str) (ctx : CommandContext) :
    List Str × Bool :=
  match c with
  | .command key reg cm =>
    CommandTokenCompleter.Complete { ContextKey := key, Registry := reg, caseMap := cm } token ctx
  | .static _ reg => StaticTokenCompleter.Complete reg token ctx
  | .bool _ _ => BoolTokenCompleter.Complete token ctx
  | .color _ _ => ColorTokenCompleter.Complete env token ctx
  | .file _ _ => FileTokenCompleter.Complete env token ctx

/-! ## The orchestrator -/

/-- The constructor `NewTabCompleter`. -/
def NewTabCompleter : TabCompleter :=
  { completer := { Registry := [], caseMap := [], ContextKey := "cmd".toList },
    completionState := { RawText := [], CursorPos := 0, tokens := [] } }

/-- The method `TabCompleter.RegisterCommand`. -/
def TabCompleter.RegisterCommand (t : TabCompleter) (cmd : Str) (command : Command) :
    TabCompleter :=
  { t with completer :=
      { t.completer with
        caseMap := mapSet t.completer.caseMap (ToLower cmd) cmd
        Registry := mapSet t.completer.Registry cmd command } }

/-- The results of `AutoComplete`, with the completer and the context as the
call leaves them. -/
structure AutoCompleteResult where
  entries : List Str
  menuOffset : Int
  t : TabCompleter
  ctx : CommandContext

/-- The loop of `AutoComplete` from token `i` on: `rest` are the tokens from
index `i`, so that `i == lastTokenIdx` when one token is left.  The result
is the returned `(entries, menuOffset)` and the context. -/
def autoCompleteLoop (env : Env) (inText : Str) (tokens : List Str) :
    TokenCompleter → List Str → CommandContext → Option (List Str × Int × CommandContext)
  | _, [], ctx => some ([], 0, ctx)
  | currentCompleter, token :: rest, ctx =>
    if rest = [] then
      let results := (currentCompleter.Complete env token ctx).1
      some (results, LastIndex inText (tokens.getD (tokens.length - 1) []), ctx)
    else
      match currentCompleter.Match env token ctx with
      | none => none
      | some r =>
        if r.ok = false then some ([], 0, r.ctx)
        else
          match r.next with
          | none => none
          | some none => some ([], 0, r.ctx)
          | some (some next) => autoCompleteLoop env inText tokens next rest r.ctx

/-- The method `TabCompleter.AutoComplete`. -/
def TabCompleter.AutoComplete (env : Env) (t : TabCompleter) (currentText : Str)
    (cursorPos : Int) (ctx : CommandContext) : Option AutoCompleteResult :=
  match sliceTo currentText cursorPos with
  | none => none
  | some inText =>
    let (tokens, err) := env.Split inText
    if err ≠ none then some { entries := [], menuOffset := 0, t := t, ctx := ctx }
    else if tokens.length = 0 then some { entries := [], menuOffset := 0, t := t, ctx := ctx }
    else
      let tokens := if HasSuffix inText [' '] then tokens ++ [[]] else tokens
      let t1 := { t with completionState :=
        { RawText := currentText, CursorPos := cursorPos, tokens := tokens } }
      match autoCompleteLoop env inText tokens t1.completer.toTokenCompleter tokens ctx with
      | none => none
      | some (entries, menuOffset, ctx1) =>
        some { entries := entries, menuOffset := menuOffset, t := t1, ctx := ctx1 }

/-- The method `TabCompleter.OnAutoCompleted`: `(closeMenu, fullText,
cursorPos)`.  The argument `index` is unused by the code. -/
def TabCompleter.OnAutoCompleted (env : Env) (t : TabCompleter) (text : Str) (_index : Int)
    (source : Int) : Option (Bool × Str × Int) :=
  if source = env.AutocompletedNavigate then
    some (false, t.completionState.RawText, t.completionState.CursorPos)
  else
    let currentText := t.completionState.RawText
    match sliceTo currentText t.completionState.CursorPos with
    | none => none
    | some inText =>
      match sliceFrom currentText t.completionState.CursorPos with
      | none => none
      | some afterText =>
        let tokens := t.completionState.tokens
        if tokens.length = 0 then none
        else
          match sliceTo inText (LastIndex inText (tokens.getD (tokens.length - 1) [])) with
          | none => none
          | some preText =>
            some (true, preText ++ text ++ afterText, (preText.length : Int) + text.length)

/-- The loop of `Parse`: the context it leaves, `none` when a step panics. -/
def parseLoop (env : Env) : TokenCompleter → List Str → CommandContext → Option CommandContext
  | _, [], ctx => some ctx
  | currentCompleter, token :: rest, ctx =>
    match currentCompleter.Match env token ctx with
    | none => none
    | some r =>
      if r.ok = false then some r.ctx
      else
        match r.next with
        | none => none
        | some none => some r.ctx
        | some (some next) => parseLoop env next rest r.ctx

/-- The method `TabCompleter.Parse`: the returned error (`none` is nil) and
the context as the call leaves it. -/
def TabCompleter.Parse (env : Env) (t : TabCompleter) (currentText : Str)
    (ctx : CommandContext) : Option (Option Str × CommandContext) :=
  let tokens := (env.Split currentText).1
  if tokens.length = 0 then some (some "NoInput".toList, ctx)
  else
    match parseLoop env t.completer.toTokenCompleter tokens ctx with
    | none => none
    | some ctx1 => some (none, ctx1)

/-- The environment used for concrete inputs: the tokenizer `shlexSplit`, an
empty colour table and file system, and `AutocompletedNavigate = 0`. -/
def stdEnv : Env :=
  { Split := shlexSplit
    GetColor := fun _ => -1
    ColorDefault := -1
    ColorNames := []
    IsLocal := fun _ => false
    Clean := fun s => s
    Glob := fun _ => []
    AutocompletedNavigate := 0 }

/-! ## Notions used to state the properties -/

/-- The completer after `RegisterCommand` was called, on a fresh
`TabCompleter`, for each pair of `regs` in turn. -/
def registerAll (regs : List (Str × Command)) : TabCompleter :=
  regs.foldl (fun t r => t.RegisterCommand r.1 r.2) NewTabCompleter

/-- The names registered by `regs`. -/
def registeredNames (regs : List (Str × Command)) : List Str := regs.map Prod.fst

/-- Offset `k` is the last occurrence of `sub` in `s`: `sub` occurs at
offset `k` and at no later offset. -/
def IsLastOccurrence (s sub : Str) (k : Nat) : Prop :=
  k ≤ s.length ∧ HasPrefix (s.drop k) sub = true ∧
    ∀ j ∈ List.range (s.length + 1), k < j → HasPrefix (s.drop j) sub = false

instance (s sub : Str) (k : Nat) : Decidable (IsLastOccurrence s sub k) := by
  unfold IsLastOccurrence; infer_instance

/-- Walking the chain from matcher `c` with `Match`, every token before
index `i` is accepted and leads to a next matcher, and the token at index
`i` is the first one that `Match` rejects. -/
def rejectedAt (env : Env) : TokenCompleter → List Str → CommandContext → Nat → Bool
  | _, [], _, _ => false
  | c, token :: _, ctx, 0 =>
    match c.Match env token ctx with
    | some r => !r.ok
    | none => false
  | c, token :: rest, ctx, i + 1 =>
    match c.Match env token ctx with
    | some r =>
      r.ok && (match r.next with
        | some (some next) => rejectedAt env next rest r.ctx i
        | _ => false)
    | none => false

/-- A matcher none of whose `Match` calls can panic: in every command
matcher reachable from it, each name of the case-insensitive index is a key
of `Registry`. -/
inductive TokenCompleter.WellFormed : TokenCompleter → Prop
  | command (key : Str) (reg : List (Str × Command)) (cm : List (Str × Str)) :
      (∀ k v, mapGet cm k = some v → (mapGet reg v).isSome = true) →
      (∀ n cmd ctx c, mapGet reg n = some cmd → cmd.GetCompleter ctx = some c →
        TokenCompleter.WellFormed c) →
      TokenCompleter.WellFormed (.command key reg cm)
  | static (key : Str) (reg : List (Str × Option TokenCompleter)) :
      (∀ n c, mapGet reg n = some (some c) → TokenCompleter.WellFormed c) →
      TokenCompleter.WellFormed (.static key reg)
  | bool (key : Str) (nxt : Option TokenCompleter) :
      (∀ c, nxt = some c → TokenCompleter.WellFormed c) →
      TokenCompleter.WellFormed (.bool key nxt)
  | color (key : Str) (nxt : Option TokenCompleter) :
      (∀ c, nxt = some c → TokenCompleter.WellFormed c) →
      TokenCompleter.WellFormed (.color key nxt)
  | file (key : Str) (nxt : Option TokenCompleter) :
      (∀ c, nxt = some c → TokenCompleter.WellFormed c) →
      TokenCompleter.WellFormed (.file key nxt)

/-- The mapping of a static dispatch matcher over the names `x`, `y`, `z`,
with their next matchers. -/
def axisRegistry (nx ny nz : Option TokenCompleter) : List (Str × Option TokenCompleter) :=
  [("x".toList, nx), ("y".toList, ny), ("z".toList, nz)]

/-- The completer with the single registered command `move`, whose completer
is a static dispatch matcher over `x`, `y`, `z`. -/
def moveChain (id : Nat) (key : Str) (nx ny nz : Option TokenCompleter) : TabCompleter :=
  NewTabCompleter.RegisterCommand "move".toList
    (.mk id (fun _ => some (.static key (axisRegistry nx ny nz))))

/-- A command whose completer is a static dispatch matcher over `x`, `y`,
`z`, each ending the grammar. -/
def moveCommand : Command :=
  .mk 1 (fun _ => some (.static "axis".toList (axisRegistry none none none)))

/-- Three registrations whose names are pairwise distinct ignoring case. -/
def sampleRegs : List (Str × Command) :=
  [("Move".toList, moveCommand), ("home".toList, moveCommand), ("MOTD".toList, moveCommand)]

/-- Two registrations whose names differ only in case. -/
def caseClashRegs : List (Str × Command) :=
  [("Move".toList, moveCommand), ("move".toList, moveCommand)]

/-- The result of `AutoComplete` for the chain `move` over `x`, `y`, `z` on
`"move x"` with the cursor at its end. -/
def moveXResult : AutoCompleteResult :=
  { entries := ["x".toList], menuOffset := 5,
    t := { moveChain 1 "axis".toList none none none with
      completionState :=
        { RawText := "move x".toList, CursorPos := 6, tokens := ["move".toList, "x".toList] } },
    ctx := [("cmd".toList, .command 1)] }

/-- An environment whose file system holds the one file `my file`; the
patterns used with it are local and clean. -/
def fileEnv : Env :=
  { stdEnv with Glob := fun _ => ["my file".toList], IsLocal := fun _ => true }

/-- The completer with the single registered command `load`, whose completer
is a file matcher ending the grammar. -/
def loadChain : TabCompleter :=
  NewTabCompleter.RegisterCommand "load".toList (.mk 2 (fun _ => some (.file "path".toList none)))

/-- The token list `AutoComplete` walks for the text `inText` left of the
cursor: the tokens of the tokenizer, followed by an empty token when the
text ends in a blank. -/
def completionTokens (env : Env) (inText : Str) : List Str :=
  if HasSuffix inText [' '] then (env.Split inText).1 ++ [[]] else (env.Split inText).1

/-- The case-insensitive index of the names `names`, entered in that order:
what `RegisterCommand` leaves in `caseMap` and what `buildCaseMap` computes
from the keys of a mapping. -/
def caseIndex (names : List Str) : List (Str × Str) :=
  names.foldl (fun m k => mapSet m (ToLower k) k) []

/-- The names of `names` are pairwise distinct ignoring case: two of them
with the same lower-cased form are the same name. -/
def DistinctIgnoringCase (names : List Str) : Prop :=
  ∀ a ∈ names, ∀ b ∈ names, ToLower a = ToLower b → a = b

instance (names : List Str) : Decidable (DistinctIgnoringCase names) := by
  unfold DistinctIgnoringCase; infer_instance

/-- The names `z`, `x`, `y` registered as commands, in that order. -/
def axisRegs : List (Str × Command) :=
  [("z".toList, moveCommand), ("x".toList, moveCommand), ("y".toList, moveCommand)]

/-- The matcher and the context with which the loop of `AutoComplete`
reaches the last token: every token before it is accepted by `Match` and
leads to a next matcher.  `none` when the loop ends before the last
token. -/
def walkToLast (env : Env) :
    TokenCompleter → List Str → CommandContext → Option (TokenCompleter × CommandContext)
  | _, [], _ => none
  | c, token :: rest, ctx =>
    if rest = [] then some (c, ctx)
    else
      match c.Match env token ctx with
      | none => none
      | some r =>
        if r.ok = false then none
        else
          match r.next with
          | some (some next) => walkToLast env next rest r.ctx
          | _ => none

/-- The completer with the single registered command `set`, which takes the
name `ab` and then the value `ab`. -/
def setChain : TabCompleter :=
  NewTabCompleter.RegisterCommand "set".toList
    (.mk 3 (fun _ => some (.static "name".toList
      [("ab".toList, some (.static "value".toList [("ab".toList, none)]))])))

/-- The result of `AutoComplete` for the chain `move` over `x`, `y`, `z` on
`"move "` with the cursor at its end. -/
def moveBlankResult : AutoCompleteResult :=
  { entries := ["x".toList, "y".toList, "z".toList], menuOffset := 5,
    t := { moveChain 1 "axis".toList none none none with
      completionState :=
        { RawText := "move ".toList, CursorPos := 5, tokens := ["move".toList, []] } },
    ctx := [("cmd".toList, .command 1)] }

/-- Two grammars of command-registry and static-dispatch matchers that hold
the same names, mappings and commands, their maps being enumerated in
possibly different orders: the maps agree on every lookup, the related
commands have the same identity and produce related completers, and the
names of each static mapping are pairwise distinct ignoring case. -/
inductive SameGrammar : TokenCompleter → TokenCompleter → Prop
  | command (key : Str) (reg1 reg2 : List (Str × Command)) (cm1 cm2 : List (Str × Str)) :
      (mapKeys cm1).Nodup → (mapKeys cm2).Nodup →
      (∀ k, mapGet cm1 k = mapGet cm2 k) →
      (∀ n, (mapGet reg1 n).isSome = (mapGet reg2 n).isSome) →
      (∀ n c1 c2, mapGet reg1 n = some c1 → mapGet reg2 n = some c2 → c1.id = c2.id) →
      (∀ n c1 c2 ctx, mapGet reg1 n = some c1 → mapGet reg2 n = some c2 →
        (c1.GetCompleter ctx).isSome = (c2.GetCompleter ctx).isSome) →
      (∀ n c1 c2 ctx m1 m2, mapGet reg1 n = some c1 → mapGet reg2 n = some c2 →
        c1.GetCompleter ctx = some m1 → c2.GetCompleter ctx = some m2 → SameGrammar m1 m2) →
      SameGrammar (.command key reg1 cm1) (.command key reg2 cm2)
  | static (key : Str) (reg1 reg2 : List (Str × Option TokenCompleter)) :
      DistinctIgnoringCase (mapKeys reg1) →
      (∀ n, n ∈ mapKeys reg1 ↔ n ∈ mapKeys reg2) →
      (∀ n, ((mapGet reg1 n).getD none).isSome = ((mapGet reg2 n).getD none).isSome) →
      (∀ n m1 m2, mapGet reg1 n = some (some m1) → mapGet reg2 n = some (some m2) →
        SameGrammar m1 m2) →
      SameGrammar (.static key reg1) (.static key reg2)

/-- A mapping whose keys `X` and `x` are equal ignoring case. -/
def clashMapping : List (Str × Option TokenCompleter) :=
  [("X".toList, none), ("x".toList, none)]

/-- The completer with the single registered command `move`, whose completer
is a static dispatch matcher over the mapping `reg`, after an earlier
request left the completion state `state`. -/
def staticChain (reg : List (Str × Option TokenCompleter)) (state : CompletionState) :
    TabCompleter :=
  { NewTabCompleter.RegisterCommand "move".toList
      (.mk 1 (fun _ => some (.static "axis".toList reg))) with completionState := state }

/-- The mapping over `x`, `y`, `z`, enumerated in the order `z`, `x`, `y`. -/
def axisReordered : List (Str × Option TokenCompleter) :=
  [("z".toList, none), ("x".toList, none), ("y".toList, none)]

/-- A completion state left by an earlier request. -/
def staleState : CompletionState :=
  { RawText := "home".toList, CursorPos := 4, tokens := ["home".toList] }

/-- The completer with the single registered command `move`, whose completer
is a static dispatch matcher over the mapping `reg`, the list order of `reg`
being the order in which the Go map is enumerated. -/
def moveChainOver (id : Nat) (key : Str) (reg : List (Str × Option TokenCompleter)) :
    TabCompleter :=
  NewTabCompleter.RegisterCommand "move".toList (.mk id (fun _ => some (.static key reg)))

/-- The result of `AutoComplete` for the chain `move` over `x`, `y`, `z` on
`"bogus x"` with the cursor at its end: `bogus` is rejected. -/
def bogusXResult : AutoCompleteResult :=
  { entries := [], menuOffset := 0,
    t := { moveChain 1 "axis".toList none none none with
      completionState :=
        { RawText := "bogus x".toList, CursorPos := 7,
          tokens := ["bogus".toList, "x".toList] } },
    ctx := [] }

/-! ## Go maps: lemmas -/

theorem mapGet_cons {V : Type} (k' : Str) (v' : V) (m : List (Str × V)) (k : Str) :
    mapGet ((k', v') :: m) k = if k' = k then some v' else mapGet m k := rfl

theorem mapSet_cons {V : Type} (k' : Str) (v' : V) (m : List (Str × V)) (k : Str) (v : V) :
    mapSet ((k', v') :: m) k v = if k' = k then (k', v) :: m else (k', v') :: mapSet m k v := rfl

theorem mapKeys_cons {V : Type} (k' : Str) (v' : V) (m : List (Str × V)) :
    mapKeys ((k', v') :: m) = k' :: mapKeys m := rfl

theorem mapGet_mapSet_same {V : Type} (m : List (Str × V)) (k : Str) (v : V) :
    mapGet (mapSet m k v) k = some v := by
  induction m with
  | nil => simp [mapSet, mapGet]
  | cons p m ih =>
    obtain ⟨k', v'⟩ := p
    rw [mapSet_cons]
    by_cases h : k' = k
    · rw [if_pos h, mapGet_cons, if_pos h]
    · rw [if_neg h, mapGet_cons, if_neg h, ih]

theorem mapGet_mapSet_ne {V : Type} (m : List (Str × V)) (k k2 : Str) (v : V) (hne : k ≠ k2) :
    mapGet (mapSet m k v) k2 = mapGet m k2 := by
  induction m with
  | nil => simp [mapSet, mapGet, hne]
  | cons p m ih =>
    obtain ⟨k', v'⟩ := p
    rw [mapSet_cons]
    by_cases h : k' = k
    · have h2 : ¬ k' = k2 := fun e => hne (h ▸ e)
      rw [if_pos h, mapGet_cons, mapGet_cons, if_neg h2, if_neg h2]
    · rw [if_neg h, mapGet_cons, mapGet_cons, ih]

theorem mapGet_isSome_iff {V : Type} (m : List (Str × V)) (k : Str) :
    (mapGet m k).isSome = true ↔ k ∈ mapKeys m := by
  induction m with
  | nil => simp [mapGet, mapKeys]
  | cons p m ih =>
    obtain ⟨k', v'⟩ := p
    rw [mapGet_cons, mapKeys_cons, List.mem_cons]
    by_cases h : k' = k
    · rw [if_pos h]; simp [h]
    · rw [if_neg h, ih]
      constructor
      · exact Or.inr
      · rintro (e | e)
        · exact absurd e.symm h
        · exact e

theorem mapGet_eq_none_iff {V : Type} (m : List (Str × V)) (k : Str) :
    mapGet m k = none ↔ k ∉ mapKeys m := by
  rw [← mapGet_isSome_iff]; cases mapGet m k <;> simp

theorem mem_of_mapGet {V : Type} (m : List (Str × V)) (k : Str) (v : V)
    (h : mapGet m k = some v) : (k, v) ∈ m := by
  induction m with
  | nil => simp [mapGet] at h
  | cons p m ih =>
    obtain ⟨k', v'⟩ := p
    rw [mapGet_cons] at h
    by_cases hk : k' = k
    · rw [if_pos hk] at h
      cases h; subst hk
      exact List.mem_cons_self _ _
    · rw [if_neg hk] at h
      exact List.mem_cons_of_mem _ (ih h)

theorem mapKeys_mapSet {V : Type} (m : List (Str × V)) (k : Str) (v : V) :
    mapKeys (mapSet m k v) = if k ∈ mapKeys m then mapKeys m else mapKeys m ++ [k] := by
  induction m with
  | nil => simp [mapSet, mapKeys]
  | cons p m ih =>
    obtain ⟨k', v'⟩ := p
    rw [mapSet_cons, mapKeys_cons]
    by_cases h : k' = k
    · rw [if_pos h, if_pos (List.mem_cons.mpr (Or.inl h.symm)), mapKeys_cons]
    · rw [if_neg h, mapKeys_cons, ih]
      by_cases hm : k ∈ mapKeys m
      · rw [if_pos hm, if_pos (List.mem_cons.mpr (Or.inr hm))]
      · have : ¬ (k ∈ k' :: mapKeys m) := by
          intro e
          rcases List.mem_cons.mp e with e | e
          · exact h e.symm
          · exact hm e
        rw [if_neg hm, if_neg this, List.cons_append]

theorem mem_mapKeys_mapSet {V : Type} (m : List (Str × V)) (k k2 : Str) (v : V) :
    k2 ∈ mapKeys (mapSet m k v) ↔ k2 ∈ mapKeys m ∨ k2 = k := by
  rw [mapKeys_mapSet]
  by_cases h : k ∈ mapKeys m
  · rw [if_pos h]
    constructor
    · exact Or.inl
    · rintro (h2 | h2)
      · exact h2
      · exact h2 ▸ h
  · rw [if_neg h, List.mem_append, List.mem_singleton]

theorem nodup_mapKeys_mapSet {V : Type} (m : List (Str × V)) (k : Str) (v : V)
    (h : (mapKeys m).Nodup) : (mapKeys (mapSet m k v)).Nodup := by
  rw [mapKeys_mapSet]
  by_cases hk : k ∈ mapKeys m
  · rw [if_pos hk]; exact h
  · rw [if_neg hk]
    refine List.Nodup.append h (List.nodup_singleton k) ?_
    intro x hx hx2
    rw [List.mem_singleton] at hx2
    exact hk (hx2 ▸ hx)

theorem mem_mapSet {V : Type} (m : List (Str × V)) (k : Str) (v : V) (p : Str × V)
    (h : p ∈ mapSet m k v) : p ∈ m ∨ p = (k, v) := by
  induction m with
  | nil =>
    right
    simpa [mapSet] using h
  | cons q m ih =>
    obtain ⟨k', v'⟩ := q
    rw [mapSet_cons] at h
    by_cases hk : k' = k
    · rw [if_pos hk, List.mem_cons] at h
      rcases h with h | h
      · right; rw [h, hk]
      · left; exact List.mem_cons_of_mem _ h
    · rw [if_neg hk, List.mem_cons] at h
      rcases h with h | h
      · left; rw [h]; exact List.mem_cons_self _ _
      · rcases ih h with h2 | h2
        · left; exact List.mem_cons_of_mem _ h2
        · right; exact h2

/-! ## Library functions: lemmas -/

theorem HasPrefix_iff (s pre : Str) : HasPrefix s pre = true ↔ pre <+: s := by
  unfold HasPrefix; exact List.isPrefixOf_iff_prefix

theorem HasPrefix_self (s : Str) : HasPrefix s s = true :=
  (HasPrefix_iff s s).mpr (List.prefix_refl s)

theorem HasPrefix_nil (s : Str) : HasPrefix s [] = true :=
  (HasPrefix_iff s []).mpr (List.nil_prefix)

theorem mem_sortStrings (l : List Str) (x : Str) : x ∈ sortStrings l ↔ x ∈ l :=
  (List.perm_insertionSort _ l).mem_iff

theorem sortStrings_sorted_lt (l : List Str) (h : l.Nodup) : (sortStrings l).Sorted (· < ·) :=
  (List.sorted_insertionSort _ l).lt_of_le ((List.perm_insertionSort _ l).nodup_iff.mpr h)

/-! ## The completion loop -/

theorem foldl_completeStep (tok : Str) (val : Str → Str) (l : List Str) (acc : List Str × Bool) :
    l.foldl (completeStep tok val) acc =
      (acc.1 ++ (l.filter (fun n => HasPrefix n tok)).map val, acc.2 || decide (tok ∈ l)) := by
  induction l generalizing acc with
  | nil => simp
  | cons n l ih =>
    rw [List.foldl_cons, ih]
    unfold completeStep
    by_cases hp : HasPrefix n tok = true
    · by_cases he : n = tok
      · subst he
        simp [hp]
      · have he2 : ¬ tok = n := fun e => he e.symm
        simp [hp, he, he2]
    · have he : ¬ tok = n := by
        intro e; subst e; exact hp (HasPrefix_self _)
      simp [hp, he]

theorem CommandTokenCompleter.Complete_eq (c : CommandTokenCompleter) (token : Str)
    (ctx : CommandContext) :
    c.Complete token ctx =
      (((sortStrings (mapKeys c.caseMap)).filter (fun n => HasPrefix n (ToLower token))).map
          (fun k => (mapGet c.caseMap k).getD []),
        decide (ToLower token ∈ mapKeys c.caseMap)) := by
  unfold CommandTokenCompleter.Complete
  simp only [foldl_completeStep, List.nil_append, Bool.false_or, mem_sortStrings]

/-! ## The registry built by `RegisterCommand` -/

theorem registerAll_snoc (regs : List (Str × Command)) (r : Str × Command) :
    registerAll (regs ++ [r]) = (registerAll regs).RegisterCommand r.1 r.2 := by
  simp [registerAll, List.foldl_append]

theorem registeredNames_snoc (regs : List (Str × Command)) (r : Str × Command) :
    registeredNames (regs ++ [r]) = registeredNames regs ++ [r.1] := by
  simp [registeredNames]

theorem registerAll_contextKey (regs : List (Str × Command)) :
    (registerAll regs).completer.ContextKey = "cmd".toList := by
  induction regs using List.reverseRecOn with
  | nil => rfl
  | append_singleton regs r ih => rw [registerAll_snoc]; exact ih

/-- The keys of the case-insensitive index are the lower-cased registered
names. -/
theorem mem_caseMap_keys (regs : List (Str × Command)) (k : Str) :
    k ∈ mapKeys (registerAll regs).completer.caseMap ↔
      k ∈ (registeredNames regs).map ToLower := by
  induction regs using List.reverseRecOn with
  | nil => simp [registerAll, NewTabCompleter, mapKeys, registeredNames]
  | append_singleton regs r ih =>
    rw [registerAll_snoc, registeredNames_snoc]
    show k ∈ mapKeys (mapSet _ _ _) ↔ _
    rw [mem_mapKeys_mapSet, ih, List.map_append, List.mem_append, List.map_singleton,
      List.mem_singleton]

theorem nodup_caseMap_keys (regs : List (Str × Command)) :
    (mapKeys (registerAll regs).completer.caseMap).Nodup := by
  induction regs using List.reverseRecOn with
  | nil => simp [registerAll, NewTabCompleter, mapKeys]
  | append_singleton regs r ih =>
    rw [registerAll_snoc]
    exact nodup_mapKeys_mapSet _ _ _ ih

/-- Every entry of the case-insensitive index maps the lower-cased form of
a registered name to that name. -/
theorem caseMap_entry (regs : List (Str × Command)) (k v : Str)
    (h : (k, v) ∈ (registerAll regs).completer.caseMap) :
    k = ToLower v ∧ v ∈ registeredNames regs := by
  induction regs using List.reverseRecOn with
  | nil => simp [registerAll, NewTabCompleter] at h
  | append_singleton regs r ih =>
    rw [registerAll_snoc] at h
    rw [registeredNames_snoc]
    rcases mem_mapSet _ _ _ _ h with h1 | h1
    · exact ⟨(ih h1).1, List.mem_append_left _ (ih h1).2⟩
    · cases h1
      exact ⟨rfl, List.mem_append_right _ (List.mem_singleton_self _)⟩

theorem caseMap_get (regs : List (Str × Command)) (k v : Str)
    (h : mapGet (registerAll regs).completer.caseMap k = some v) :
    k = ToLower v ∧ v ∈ registeredNames regs :=
  caseMap_entry regs k v (mem_of_mapGet _ _ _ h)

/-- When the names are pairwise distinct ignoring case, the index maps the
lower-cased form of each registered name to that very name. -/
theorem caseMap_get_of_nodup (regs : List (Str × Command))
    (hd : ((registeredNames regs).map ToLower).Nodup) (n : Str) (hn : n ∈ registeredNames regs) :
    mapGet (registerAll regs).completer.caseMap (ToLower n) = some n := by
  induction regs using List.reverseRecOn with
  | nil => simp [registeredNames] at hn
  | append_singleton regs r ih =>
    rw [registeredNames_snoc, List.map_append, List.map_singleton] at hd
    rw [registeredNames_snoc, List.mem_append, List.mem_singleton] at hn
    rw [registerAll_snoc]
    show mapGet (mapSet _ _ _) _ = _
    rcases hn with hn | hn
    · have hne : ToLower r.1 ≠ ToLower n := by
        intro e
        have h1 := List.disjoint_of_nodup_append hd (List.mem_map_of_mem ToLower hn)
        exact h1 (by rw [e]; exact List.mem_singleton_self _)
      rw [mapGet_mapSet_ne _ _ _ _ hne]
      exact ih (List.Nodup.of_append_left hd) hn
    · subst hn
      exact mapGet_mapSet_same _ _ _

/-- The registry holds exactly the registered pairs. -/
theorem registry_get (regs : List (Str × Command)) (n : Str) (cmd : Command)
    (h : mapGet (registerAll regs).completer.Registry n = some cmd) : (n, cmd) ∈ regs := by
  induction regs using List.reverseRecOn with
  | nil => simp [registerAll, NewTabCompleter, mapGet] at h
  | append_singleton regs r ih =>
    rw [registerAll_snoc] at h
    change mapGet (mapSet _ _ _) _ = _ at h
    by_cases hn : r.1 = n
    · subst hn
      rw [mapGet_mapSet_same] at h
      cases h
      exact List.mem_append_right _ (List.mem_singleton_self _)
    · rw [mapGet_mapSet_ne _ _ _ _ hn] at h
      exact List.mem_append_left _ (ih h)

theorem mem_registry_keys (regs : List (Str × Command)) (n : Str) :
    n ∈ mapKeys (registerAll regs).completer.Registry ↔ n ∈ registeredNames regs := by
  induction regs using List.reverseRecOn with
  | nil => simp [registerAll, NewTabCompleter, mapKeys, registeredNames]
  | append_singleton regs r ih =>
    rw [registerAll_snoc, registeredNames_snoc]
    show n ∈ mapKeys (mapSet _ _ _) ↔ _
    rw [mem_mapKeys_mapSet, ih, List.mem_append, List.mem_singleton]


/-- The candidates of the command matcher, when the registered names are
pairwise distinct ignoring case: their lower-cased forms are the sorted keys
that have the lower-cased token as a prefix. -/
theorem complete_map_lower (regs : List (Str × Command)) (token : Str) (ctx : CommandContext) :
    (((registerAll regs).completer.Complete token ctx).1).map ToLower =
      (sortStrings (mapKeys (registerAll regs).completer.caseMap)).filter
        (fun n => HasPrefix n (ToLower token)) := by
  rw [CommandTokenCompleter.Complete_eq, List.map_map]
  conv_rhs => rw [← List.map_id (List.filter _ _)]
  apply List.map_congr_left
  intro k hk
  have hk1 : k ∈ mapKeys (registerAll regs).completer.caseMap :=
    (mem_sortStrings _ _).mp (List.mem_of_mem_filter hk)
  have hs := (mapGet_isSome_iff _ _).mpr hk1
  obtain ⟨v, hv⟩ := Option.isSome_iff_exists.mp hs
  have hkv := (caseMap_get regs k v hv).1
  show ToLower ((mapGet (registerAll regs).completer.caseMap k).getD []) = id k
  rw [hv, Option.getD_some, id, hkv]

theorem mem_complete (regs : List (Str × Command)) (token : Str) (ctx : CommandContext)
    (n : Str) :
    n ∈ ((registerAll regs).completer.Complete token ctx).1 ↔
      ∃ k, HasPrefix k (ToLower token) = true ∧
        mapGet (registerAll regs).completer.caseMap k = some n := by
  rw [CommandTokenCompleter.Complete_eq]
  simp only [List.mem_map, List.mem_filter, mem_sortStrings]
  constructor
  · rintro ⟨k, ⟨hk, hp⟩, hv⟩
    have hs := (mapGet_isSome_iff _ _).mpr hk
    obtain ⟨v, hv2⟩ := Option.isSome_iff_exists.mp hs
    rw [hv2] at hv
    exact ⟨k, hp, by rw [hv2]; exact congrArg some hv⟩
  · rintro ⟨k, hp, hv⟩
    refine ⟨k, ⟨?_, hp⟩, by rw [hv]; rfl⟩
    exact (mapGet_isSome_iff _ _).mp (by rw [hv]; rfl)

/-! ## Command completion (C1) -/

/-- C1: for a registry built by `RegisterCommand` from names that are
pairwise distinct ignoring case, `CommandTokenCompleter.Complete` returns
exactly the registered names whose lower-cased form has the lower-cased
token as a prefix, each once, in ascending order of their lower-cased form;
for the empty token it returns all registered names. -/
theorem complete_registered_names_sorted (regs : List (Str × Command)) (token : Str)
    (ctx : CommandContext) (hd : ((registeredNames regs).map ToLower).Nodup) :
    (∀ n, n ∈ ((registerAll regs).completer.Complete token ctx).1 ↔
        n ∈ registeredNames regs ∧ HasPrefix (ToLower n) (ToLower token) = true) ∧
      (((registerAll regs).completer.Complete token ctx).1).Nodup ∧
      ((((registerAll regs).completer.Complete token ctx).1).map ToLower).Sorted (· < ·) ∧
      (token = [] →
        (((registerAll regs).completer.Complete token ctx).1).Perm (registeredNames regs)) := by
  have hmem : ∀ n, n ∈ ((registerAll regs).completer.Complete token ctx).1 ↔
      n ∈ registeredNames regs ∧ HasPrefix (ToLower n) (ToLower token) = true := by
    intro n
    rw [mem_complete]
    constructor
    · rintro ⟨k, hp, hv⟩
      obtain ⟨hk, hn⟩ := caseMap_get regs k n hv
      exact ⟨hn, hk ▸ hp⟩
    · rintro ⟨hn, hp⟩
      exact ⟨ToLower n, hp, caseMap_get_of_nodup regs hd n hn⟩
  have hsorted : ((((registerAll regs).completer.Complete token ctx).1).map ToLower).Sorted
      (· < ·) := by
    rw [complete_map_lower]
    exact (sortStrings_sorted_lt _ (nodup_caseMap_keys regs)).filter _
  have hnodup : (((registerAll regs).completer.Complete token ctx).1).Nodup :=
    List.Nodup.of_map _ hsorted.nodup
  refine ⟨hmem, hnodup, hsorted, ?_⟩
  intro ht
  subst ht
  refine (List.perm_ext_iff_of_nodup hnodup (List.Nodup.of_map _ hd)).mpr ?_
  intro n
  rw [hmem]
  constructor
  · exact fun h => h.1
  · exact fun h => ⟨h, HasPrefix_nil _⟩

/-- C1 at the registrations `Move`, `home`, `MOTD` and the token `mo`. -/
theorem complete_registered_names_sorted_witness :
    ((registeredNames sampleRegs).map ToLower).Nodup ∧
      ((registerAll sampleRegs).completer.Complete "mo".toList []).1 =
        ["MOTD".toList, "Move".toList] ∧
      ((((registerAll sampleRegs).completer.Complete "mo".toList []).1).map ToLower).Sorted
        (· < ·) :=
  ⟨by decide, by decide,
    (complete_registered_names_sorted sampleRegs "mo".toList [] (by decide)).2.2.1⟩

/-! ## Command match (C4) -/

/-- C4: for a registry built by `RegisterCommand`, `CommandTokenCompleter.Match`
returns; it accepts exactly when the lower-cased token is the lower-cased
form of a registered name; on acceptance the context is the given one with
the resolved command stored under the key `cmd`, and the next matcher is the
one the command's `GetCompleter` produces for that context; on rejection the
results are `(false, "", nil)` and the context is the given one. -/
theorem command_match_resolves (regs : List (Str × Command)) (token : Str)
    (ctx : CommandContext) :
    ∃ r, (registerAll regs).completer.Match token ctx = some r ∧
      (r.ok = true ↔ ∃ n ∈ registeredNames regs, ToLower n = ToLower token) ∧
      (r.ok = true → ∃ name cmd, (name, cmd) ∈ regs ∧ ToLower name = ToLower token ∧
        mapGet (registerAll regs).completer.caseMap (ToLower token) = some name ∧
        mapGet (registerAll regs).completer.Registry name = some cmd ∧
        r.ctx = mapSet ctx "cmd".toList (.command cmd.id) ∧
        mapGet r.ctx "cmd".toList = some (.command cmd.id) ∧
        r.next = some (cmd.GetCompleter r.ctx) ∧ r.token = token) ∧
      (r.ok = false → r.token = [] ∧ r.next = none ∧ r.ctx = ctx) := by
  unfold CommandTokenCompleter.Match
  cases hc : mapGet (registerAll regs).completer.caseMap (ToLower token) with
  | none =>
    refine ⟨_, rfl, ?_, ?_, ?_⟩
    · constructor
      · intro h; cases h
      · rintro ⟨n, hn, hl⟩
        have := (mapGet_eq_none_iff _ _).mp hc
        rw [mem_caseMap_keys, ← hl] at this
        exact absurd (List.mem_map_of_mem ToLower hn) this
    · intro h; cases h
    · intro _; exact ⟨rfl, rfl, rfl⟩
  | some key =>
    obtain ⟨hk1, hk2⟩ := caseMap_get regs _ _ hc
    have hreg : key ∈ mapKeys (registerAll regs).completer.Registry :=
      (mem_registry_keys regs key).mpr hk2
    obtain ⟨cmd, hcmd⟩ := Option.isSome_iff_exists.mp ((mapGet_isSome_iff _ _).mpr hreg)
    simp only [hcmd]
    refine ⟨_, rfl, ?_, ?_, ?_⟩
    · constructor
      · intro _; exact ⟨key, hk2, hk1.symm⟩
      · intro _; rfl
    · intro _
      refine ⟨key, cmd, registry_get regs key cmd hcmd, hk1.symm, rfl, hcmd, ?_, ?_, rfl, rfl⟩
      · rw [registerAll_contextKey]
      · show mapGet (mapSet ctx _ _) _ = _
        rw [registerAll_contextKey, mapGet_mapSet_same]
    · intro h; cases h

/-! ## `strings.LastIndex` -/

theorem HasPrefix_nil_left (sub : Str) (h : sub ≠ []) : HasPrefix [] sub = false := by
  cases sub with
  | nil => exact absurd rfl h
  | cons c cs => rfl

theorem IsLastOccurrence_unique (s sub : Str) (k k2 : Nat) (h1 : IsLastOccurrence s sub k)
    (h2 : IsLastOccurrence s sub k2) : k = k2 := by
  obtain ⟨hk, hp, hl⟩ := h1
  obtain ⟨hk2, hp2, hl2⟩ := h2
  rcases Nat.lt_trichotomy k k2 with h | h | h
  · have := hl k2 (List.mem_range.mpr (Nat.lt_succ_of_le hk2)) h
    rw [hp2] at this; cases this
  · exact h
  · have := hl2 k (List.mem_range.mpr (Nat.lt_succ_of_le hk)) h
    rw [hp] at this; cases this

theorem LastIndex_spec (s sub : Str) :
    (LastIndex s sub = -1 ∧ ∀ j, j ≤ s.length → HasPrefix (s.drop j) sub = false) ∨
      (∃ k : Nat, LastIndex s sub = (k : Int) ∧ IsLastOccurrence s sub k) := by
  induction s with
  | nil =>
    by_cases hs : sub = []
    · right
      refine ⟨0, by simp [LastIndex, hs], Nat.le_refl _, by simp [hs, HasPrefix], ?_⟩
      intro j hj hlt
      simp at hj
      omega
    · left
      refine ⟨by simp [LastIndex, hs], ?_⟩
      intro j _
      rw [List.drop_nil]
      exact HasPrefix_nil_left sub hs
  | cons c cs ih =>
    rcases ih with ⟨hr, hno⟩ | ⟨k, hr, hk, hp, hl⟩
    · by_cases hpre : HasPrefix (c :: cs) sub = true
      · right
        refine ⟨0, by simp [LastIndex, hr, hpre], Nat.zero_le _, hpre, ?_⟩
        intro j hj hlt
        obtain ⟨j2, rfl⟩ : ∃ j2, j = j2 + 1 := ⟨j - 1, by omega⟩
        rw [List.drop_succ_cons]
        apply hno
        have := List.mem_range.mp hj
        simp at this
        omega
      · left
        refine ⟨by simp [LastIndex, hr, hpre], ?_⟩
        intro j hj
        cases j with
        | zero => simpa using hpre
        | succ j2 =>
          rw [List.drop_succ_cons]
          apply hno
          simp at hj
          omega
    · right
      refine ⟨k + 1, ?_, ?_, ?_, ?_⟩
      · have : (0 : Int) ≤ k := Int.ofNat_nonneg k
        simp [LastIndex, hr, this]
      · simp; omega
      · rw [List.drop_succ_cons]; exact hp
      · intro j hj hlt
        obtain ⟨j2, rfl⟩ : ∃ j2, j = j2 + 1 := ⟨j - 1, by omega⟩
        rw [List.drop_succ_cons]
        apply hl j2
        · have := List.mem_range.mp hj
          simp at this
          exact List.mem_range.mpr (by omega)
        · omega

/-- `LastIndex` returns the last occurrence. -/
theorem LastIndex_eq_of_isLast (s sub : Str) (k : Nat) (h : IsLastOccurrence s sub k) :
    LastIndex s sub = (k : Int) := by
  rcases LastIndex_spec s sub with ⟨_, hno⟩ | ⟨k2, hr, hk2⟩
  · have := hno k h.1
    rw [h.2.1] at this; cases this
  · rw [hr, IsLastOccurrence_unique s sub k k2 h hk2]

theorem getD_last (l : List Str) (x : Str) (h : l.getLast? = some x) :
    l.getD (l.length - 1) [] = x := by
  rw [List.getLast?_eq_getElem?] at h
  rw [List.getD_eq_getElem?_getD, h]
  rfl

theorem sliceTo_nat (s : Str) (n : Nat) :
    sliceTo s (n : Int) = if n ≤ s.length then some (s.take n) else none := by
  unfold sliceTo
  by_cases h : n ≤ s.length
  · have : (0 : Int) ≤ n ∧ (n : Int) ≤ s.length := ⟨Int.ofNat_nonneg n, by exact_mod_cast h⟩
    rw [if_pos this, if_pos h, Int.toNat_ofNat]
  · have : ¬ ((0 : Int) ≤ n ∧ (n : Int) ≤ s.length) := by
      rintro ⟨_, h2⟩; exact h (by exact_mod_cast h2)
    rw [if_neg this, if_neg h]

theorem sliceFrom_nat (s : Str) (n : Nat) :
    sliceFrom s (n : Int) = if n ≤ s.length then some (s.drop n) else none := by
  unfold sliceFrom
  by_cases h : n ≤ s.length
  · have : (0 : Int) ≤ n ∧ (n : Int) ≤ s.length := ⟨Int.ofNat_nonneg n, by exact_mod_cast h⟩
    rw [if_pos this, if_pos h, Int.toNat_ofNat]
  · have : ¬ ((0 : Int) ≤ n ∧ (n : Int) ≤ s.length) := by
      rintro ⟨_, h2⟩; exact h (by exact_mod_cast h2)
    rw [if_neg this, if_neg h]

/-! ## The state recorded by `AutoComplete` -/

/-- The tokens `AutoComplete` works on: the tokens of the tokenizer, and an
empty token after them when the text ends in a blank. -/
theorem autoComplete_inv (env : Env) (t : TabCompleter) (text : Str) (cursor : Nat)
    (ctx : CommandContext) (r : AutoCompleteResult)
    (h : t.AutoComplete env text (cursor : Int) ctx = some r) :
    cursor ≤ text.length ∧
      (((env.Split (text.take cursor)).2 ≠ none ∨ (env.Split (text.take cursor)).1 = []) →
        r.entries = [] ∧ r.menuOffset = 0 ∧ r.t = t ∧ r.ctx = ctx) ∧
      ((env.Split (text.take cursor)).2 = none → (env.Split (text.take cursor)).1 ≠ [] →
        r.t.completer = t.completer ∧
        r.t.completionState.RawText = text ∧
        r.t.completionState.CursorPos = (cursor : Int) ∧
        r.t.completionState.tokens =
          (if HasSuffix (text.take cursor) [' '] then (env.Split (text.take cursor)).1 ++ [[]]
           else (env.Split (text.take cursor)).1) ∧
        autoCompleteLoop env (text.take cursor) r.t.completionState.tokens
          t.completer.toTokenCompleter r.t.completionState.tokens ctx =
          some (r.entries, r.menuOffset, r.ctx)) := by
  unfold TabCompleter.AutoComplete at h
  rw [sliceTo_nat] at h
  by_cases hc : cursor ≤ text.length
  · rw [if_pos hc] at h
    refine ⟨hc, ?_, ?_⟩
    · intro hbad
      simp only at h
      by_cases he : (env.Split (text.take cursor)).2 ≠ none
      · rw [if_pos he] at h
        cases h; exact ⟨rfl, rfl, rfl, rfl⟩
      · rw [if_neg he] at h
        have h0 : (env.Split (text.take cursor)).1.length = 0 := by
          rcases hbad with hb | hb
          · exact absurd hb he
          · rw [hb]; rfl
        rw [if_pos h0] at h
        cases h; exact ⟨rfl, rfl, rfl, rfl⟩
    · intro he hne
      simp only at h
      rw [if_neg (by simpa using he)] at h
      have h0 : ¬ (env.Split (text.take cursor)).1.length = 0 := by
        intro e; exact hne (List.length_eq_zero.mp e)
      rw [if_neg h0] at h
      split at h
      · cases h
      · rename_i entries menuOffset ctx1 heq
        cases h
        exact ⟨rfl, rfl, rfl, rfl, heq⟩
  · rw [if_neg hc] at h; cases h

/-! ## Applying a selection (C5) -/

/-- The splice of `OnAutoCompleted` on a state whose cursor is within the
text and whose last token has its last occurrence at offset `k`. -/
theorem onAutoCompleted_state (env : Env) (t : TabCompleter) (cursor : Nat)
    (hc : cursor ≤ t.completionState.RawText.length)
    (hcur : t.completionState.CursorPos = (cursor : Int))
    (last : Str) (hlast : t.completionState.tokens.getLast? = some last)
    (k : Nat) (hk : IsLastOccurrence (t.completionState.RawText.take cursor) last k)
    (sel : Str) (index source : Int) (hsrc : source ≠ env.AutocompletedNavigate) :
    t.OnAutoCompleted env sel index source =
      some (true, t.completionState.RawText.take k ++ sel ++ t.completionState.RawText.drop cursor,
        (k : Int) + (sel.length : Int)) := by
  have hkc : k ≤ cursor := by
    have := hk.1
    rw [List.length_take] at this
    omega
  have hlen : ¬ t.completionState.tokens.length = 0 := by
    intro e
    rw [List.length_eq_zero.mp e] at hlast
    cases hlast
  unfold TabCompleter.OnAutoCompleted
  rw [if_neg hsrc, hcur]
  simp only [sliceTo_nat, sliceFrom_nat, if_pos hc, if_neg hlen, getD_last _ _ hlast,
    LastIndex_eq_of_isLast _ _ _ hk, if_pos hk.1]
  rw [List.take_take, Nat.min_eq_left hkc, List.length_take, Nat.min_eq_left (Nat.le_trans hkc hc)]

/-- C5: for a completion state recorded by `AutoComplete` (text, cursor,
tokens) whose last token has its last occurrence in `text[:cursor]` at
offset `k`, and for every selection and every source other than
`AutocompletedNavigate`, `OnAutoCompleted` returns `closeMenu = true`, the
text `text[:k] + selection + text[cursor:]` and the cursor
`k + len(selection)`. -/
theorem onAutoCompleted_splices (env : Env) (t : TabCompleter) (text : Str) (cursor : Nat)
    (ctx : CommandContext) (r : AutoCompleteResult)
    (hrun : t.AutoComplete env text (cursor : Int) ctx = some r)
    (herr : (env.Split (text.take cursor)).2 = none)
    (hne : (env.Split (text.take cursor)).1 ≠ [])
    (last : Str) (hlast : r.t.completionState.tokens.getLast? = some last)
    (k : Nat) (hk : IsLastOccurrence (text.take cursor) last k)
    (sel : Str) (index source : Int) (hsrc : source ≠ env.AutocompletedNavigate) :
    r.t.completionState.RawText = text ∧ r.t.completionState.CursorPos = (cursor : Int) ∧
      r.t.OnAutoCompleted env sel index source =
        some (true, text.take k ++ sel ++ text.drop cursor, (k : Int) + (sel.length : Int)) := by
  obtain ⟨hc, _, hrec⟩ := autoComplete_inv env t text cursor ctx r hrun
  obtain ⟨_, hraw, hcur, _, _⟩ := hrec herr hne
  refine ⟨hraw, hcur, ?_⟩
  have hon := onAutoCompleted_state env r.t cursor (hraw ▸ hc) hcur last hlast k (hraw ▸ hk) sel
    index source hsrc
  rw [hraw] at hon
  exact hon

/-- C5 for the chain `move` over `x`, `y`, `z` at the text `"move x"`, the
cursor at its end and the selection `y`. -/
theorem onAutoCompleted_splices_witness :
    moveXResult.t.OnAutoCompleted stdEnv "y".toList 0 1 = some (true, "move y".toList, 6) :=
  (onAutoCompleted_splices stdEnv (moveChain 1 "axis".toList none none none) "move x".toList 6 []
    moveXResult rfl rfl (by decide) "x".toList rfl 5 (by decide) "y".toList 0 1 (by decide)).2.2

/-! ## The tokenizer: lemmas -/

theorem lexStep_start_value (l : Lexer) (c : Char) (h : l.state = .start → l.value = [])
    (hs : (lexStep l c).state = .start) : (lexStep l c).value = [] := by
  obtain ⟨st, v, w⟩ := l
  cases st <;> simp only [lexStep] at hs ⊢ <;> (try split at hs) <;> (try split) <;>
    simp_all

theorem lex_start_value (s : Str) (l : Lexer) (h : l.state = .start → l.value = [])
    (hs : (s.foldl lexStep l).state = .start) : (s.foldl lexStep l).value = [] := by
  induction s using List.reverseRecOn with
  | nil => exact h hs
  | append_singleton s c ih =>
    rw [List.foldl_append] at hs ⊢
    exact lexStep_start_value _ c ih hs

theorem lex_inWord_plain (cs : Str) (v : Str) (w : List Str)
    (h : ∀ c ∈ cs, classifyRune c = .unknown) :
    cs.foldl lexStep { state := .inWord, value := v, words := w } =
      { state := .inWord, value := v ++ cs, words := w } := by
  induction cs generalizing v with
  | nil => simp
  | cons c cs ih =>
    have hc : classifyRune c = .unknown := h c (List.mem_cons_self _ _)
    rw [List.foldl_cons]
    have : lexStep { state := .inWord, value := v, words := w } c =
        { state := .inWord, value := v ++ [c], words := w } := by
      simp only [lexStep, hc]
    rw [this, ih _ (fun x hx => h x (List.mem_cons_of_mem _ hx))]
    simp

theorem lex_start_plain (sel : Str) (w : List Str) (hne : sel ≠ [])
    (h : ∀ c ∈ sel, classifyRune c = .unknown) :
    sel.foldl lexStep { state := .start, value := [], words := w } =
      { state := .inWord, value := sel, words := w } := by
  cases sel with
  | nil => exact absurd rfl hne
  | cons c cs =>
    have hc : classifyRune c = .unknown := h c (List.mem_cons_self _ _)
    rw [List.foldl_cons]
    have : lexStep { state := .start, value := [], words := w } c =
        { state := .inWord, value := [c], words := w } := by
      simp only [lexStep, hc, List.nil_append]
    rw [this, lex_inWord_plain cs [c] w (fun x hx => h x (List.mem_cons_of_mem _ hx))]
    simp

/-- A plain word appended where the tokenizer is between tokens is the last
token. -/
theorem shlexSplit_append_plain (pre sel : Str)
    (hstart : (pre.foldl lexStep lexInit).state = .start) (hne : sel ≠ [])
    (h : ∀ c ∈ sel, classifyRune c = .unknown) :
    shlexSplit (pre ++ sel) = ((pre.foldl lexStep lexInit).words ++ [sel], none) := by
  have hv := lex_start_value pre lexInit (fun _ => rfl) hstart
  have hl : pre.foldl lexStep lexInit =
      { state := .start, value := [], words := (pre.foldl lexStep lexInit).words } := by
    cases hp : pre.foldl lexStep lexInit with
    | mk st v w =>
      rw [hp] at hstart hv
      simp only at hstart hv
      rw [hstart, hv]
  unfold shlexSplit
  rw [List.foldl_append, hl, lex_start_plain sel _ hne h]
  rfl

theorem HasSuffix_blank_plain (pre sel : Str) (hne : sel ≠ [])
    (h : ∀ c ∈ sel, classifyRune c = .unknown) : HasSuffix (pre ++ sel) [' '] = false := by
  cases hs : HasSuffix (pre ++ sel) [' '] with
  | false => rfl
  | true =>
    exfalso
    unfold HasSuffix at hs
    rw [List.isSuffixOf_iff_suffix] at hs
    obtain ⟨t, ht⟩ := hs
    have h1 : (pre ++ sel).getLast? = some ' ' := by rw [← ht]; simp
    rw [List.getLast?_append_of_ne_nil _ hne] at h1
    have h2 := h ' ' (List.mem_of_getLast?_eq_some h1)
    revert h2
    decide

/-! ## Round trip of a selection (C6) -/

/-- C6, as stated, fails for the candidates of the file matcher: with the
file `my file`, the request `"load my"` produces the candidate `my\ file`;
applying it gives the text `load my\ file`, whose last token is `my file`,
not the selection. -/
theorem retokenize_selection_counterexample :
    (loadChain.AutoComplete fileEnv "load my".toList 7 []).map (fun r => r.entries) =
        some ["my\\ file".toList] ∧
      (loadChain.AutoComplete fileEnv "load my".toList 7 []).bind
        (fun r => r.t.OnAutoCompleted fileEnv "my\\ file".toList 0 1) =
        some (true, "load my\\ file".toList, 13) ∧
      fileEnv.Split (("load my\\ file".toList).take 13) =
        (["load".toList, "my file".toList], none) ∧
      (["load".toList, "my file".toList].getLast? ≠ some "my\\ file".toList) := by
  refine ⟨by decide, rfl, by decide, by decide⟩

/-- C6, amended: for an `AutoComplete` request that produced candidates,
with the tokenizer `shlex.Split`, when the last token has its last
occurrence in `text[:cursor]` at offset `k`, the tokenizer is between tokens
after reading `text[:k]`, and the selection is non-empty and made of
ordinary characters only (no white space, quote, backslash or `#`), applying
the selection with `OnAutoCompleted` and tokenizing the new text up to the
new cursor succeeds with a token list whose last token is the selection. -/
theorem retokenize_selection (env : Env) (hS : env.Split = shlexSplit) (t : TabCompleter)
    (text : Str) (cursor : Nat) (ctx : CommandContext) (r : AutoCompleteResult)
    (hrun : t.AutoComplete env text (cursor : Int) ctx = some r) (hcand : r.entries ≠ [])
    (last : Str) (hlast : r.t.completionState.tokens.getLast? = some last)
    (k : Nat) (hk : IsLastOccurrence (text.take cursor) last k)
    (hstart : ((text.take k).foldl lexStep lexInit).state = .start)
    (sel : Str) (hne : sel ≠ []) (hplain : ∀ c ∈ sel, classifyRune c = .unknown)
    (index source : Int) (hsrc : source ≠ env.AutocompletedNavigate) :
    r.t.OnAutoCompleted env sel index source =
        some (true, text.take k ++ sel ++ text.drop cursor, ((k + sel.length : Nat) : Int)) ∧
      env.Split ((text.take k ++ sel ++ text.drop cursor).take (k + sel.length)) =
        (((text.take k).foldl lexStep lexInit).words ++ [sel], none) ∧
      (((text.take k).foldl lexStep lexInit).words ++ [sel]).getLast? = some sel ∧
      HasSuffix ((text.take k ++ sel ++ text.drop cursor).take (k + sel.length)) [' '] =
        false := by
  obtain ⟨hc, hbad, _⟩ := autoComplete_inv env t text cursor ctx r hrun
  have herr : (env.Split (text.take cursor)).2 = none := by
    by_contra he
    exact hcand (hbad (Or.inl he)).1
  have hnz : (env.Split (text.take cursor)).1 ≠ [] := by
    intro he
    exact hcand (hbad (Or.inr he)).1
  obtain ⟨_, _, hrec⟩ := autoComplete_inv env t text cursor ctx r hrun
  obtain ⟨_, hraw, hcur, _, _⟩ := hrec herr hnz
  have hon := onAutoCompleted_state env r.t cursor (hraw ▸ hc) hcur last hlast k (hraw ▸ hk) sel
    index source hsrc
  rw [hraw] at hon
  have hkc : k ≤ cursor := by
    have := hk.1
    rw [List.length_take] at this
    omega
  have htake : (text.take k ++ sel ++ text.drop cursor).take (k + sel.length) =
      text.take k ++ sel := by
    rw [List.take_left']
    rw [List.length_append, List.length_take, Nat.min_eq_left (Nat.le_trans hkc hc)]
  refine ⟨?_, ?_, ?_, ?_⟩
  · rw [hon]; simp
  · rw [htake, hS]
    exact shlexSplit_append_plain _ sel hstart hne hplain
  · simp
  · rw [htake]
    exact HasSuffix_blank_plain _ sel hne hplain

/-- C6 for the chain `move` over `x`, `y`, `z` at the text `"move x"`, the
cursor at its end and the selection `y`. -/
theorem retokenize_selection_witness :
    moveXResult.t.OnAutoCompleted stdEnv "y".toList 0 1 = some (true, "move y".toList, 6) ∧
      stdEnv.Split (("move y".toList).take 6) = (["move".toList, "y".toList], none) ∧
      ["move".toList, "y".toList].getLast? = some "y".toList ∧
      HasSuffix (("move y".toList).take 6) [' '] = false :=
  retokenize_selection stdEnv rfl (moveChain 1 "axis".toList none none none) "move x".toList 6 []
    moveXResult rfl (by decide) "x".toList rfl 5 (by decide) (by decide) "y".toList (by decide)
    (by decide) 0 1 (by decide)

/-! ## Boolean match (C7) -/

/-- C7: `BoolTokenCompleter.Match` accepts every token and advances to its
fixed next matcher; it stores `true` under its context key when the token
lower-cases to `"true"` (so for `TRUE` and `true`), stores `false` when it
lower-cases to `"false"`, and leaves the context unchanged for every other
token (such as `maybe`), so that an unset key stays unset. -/
theorem bool_match_accepts (key : Str) (next : Option TokenCompleter) (token : Str)
    (ctx : CommandContext) :
    (BoolTokenCompleter.Match key next token ctx).ok = true ∧
      (BoolTokenCompleter.Match key next token ctx).next = some next ∧
      (ToLower token = "true".toList →
        (BoolTokenCompleter.Match key next token ctx).ctx = mapSet ctx key (.bool true)) ∧
      (ToLower token = "false".toList →
        (BoolTokenCompleter.Match key next token ctx).ctx = mapSet ctx key (.bool false)) ∧
      (ToLower token ≠ "true".toList → ToLower token ≠ "false".toList →
        (BoolTokenCompleter.Match key next token ctx).ctx = ctx) ∧
      mapGet (BoolTokenCompleter.Match key next "TRUE".toList ctx).ctx key = some (.bool true) ∧
      mapGet (BoolTokenCompleter.Match key next "true".toList ctx).ctx key = some (.bool true) ∧
      mapGet (BoolTokenCompleter.Match key next "false".toList ctx).ctx key =
        some (.bool false) ∧
      (BoolTokenCompleter.Match key next "maybe".toList ctx).ok = true ∧
      (mapGet ctx key = none →
        mapGet (BoolTokenCompleter.Match key next "maybe".toList ctx).ctx key = none) := by
  refine ⟨rfl, rfl, ?_, ?_, ?_, ?_, ?_, ?_, rfl, ?_⟩
  · intro h
    simp only [BoolTokenCompleter.Match, h, if_true]
  · intro h
    have hne : ¬ "false".toList = "true".toList := by decide
    simp only [BoolTokenCompleter.Match, h, if_true, if_neg hne]
  · intro h1 h2
    simp only [BoolTokenCompleter.Match, if_neg h1, if_neg h2]
  · exact mapGet_mapSet_same ctx key _
  · exact mapGet_mapSet_same ctx key _
  · exact mapGet_mapSet_same ctx key _
  · intro h
    exact h

/-! ## Bad input to `AutoComplete` (C8) -/

theorem autoCompleteLoop_rejected (env : Env) (inText : Str) (tokens : List Str) (i : Nat) :
    ∀ (c : TokenCompleter) (rest : List Str) (ctx : CommandContext),
      i + 1 < rest.length → rejectedAt env c rest ctx i = true →
      ∃ ctx1, autoCompleteLoop env inText tokens c rest ctx = some ([], 0, ctx1) := by
  induction i with
  | zero =>
    intro c rest ctx hlen hrej
    cases rest with
    | nil => simp at hlen
    | cons token rest1 =>
      have hne : rest1 ≠ [] := by
        intro e; subst e; simp at hlen
      unfold rejectedAt at hrej
      unfold autoCompleteLoop
      rw [if_neg hne]
      cases hm : c.Match env token ctx with
      | none => rw [hm] at hrej; cases hrej
      | some r =>
        rw [hm] at hrej
        simp only at hrej ⊢
        have hok : r.ok = false := by simpa using hrej
        rw [if_pos hok]
        exact ⟨_, rfl⟩
  | succ i ih =>
    intro c rest ctx hlen hrej
    cases rest with
    | nil => simp at hlen
    | cons token rest1 =>
      have hne : rest1 ≠ [] := by
        intro e; subst e; simp at hlen
      unfold rejectedAt at hrej
      unfold autoCompleteLoop
      rw [if_neg hne]
      cases hm : c.Match env token ctx with
      | none => rw [hm] at hrej; cases hrej
      | some r =>
        rw [hm] at hrej
        simp only [Bool.and_eq_true] at hrej ⊢
        obtain ⟨hok, hnext⟩ := hrej
        have hok2 : ¬ r.ok = false := by rw [hok]; simp
        rw [if_neg hok2]
        cases hn : r.next with
        | none => rw [hn] at hnext; cases hnext
        | some o =>
          cases o with
          | none => rw [hn] at hnext; cases hnext
          | some next =>
            rw [hn] at hnext
            simp only at hnext ⊢
            exact ih next rest1 r.ctx (by simpa using hlen) hnext

/-- C8: whenever tokenizing the text left of the cursor fails, or yields no
token, or `Match` rejects a token before the last one, `AutoComplete`
returns (it does not fail) an empty candidate list and the insertion
offset 0. -/
theorem autoComplete_bad_input (env : Env) (t : TabCompleter) (text : Str) (cursor : Nat)
    (ctx : CommandContext) (hc : cursor ≤ text.length)
    (hbad : (env.Split (text.take cursor)).2 ≠ none ∨ (env.Split (text.take cursor)).1 = [] ∨
      ∃ i, i + 1 < (completionTokens env (text.take cursor)).length ∧
        rejectedAt env t.completer.toTokenCompleter (completionTokens env (text.take cursor))
          ctx i = true) :
    (t.AutoComplete env text (cursor : Int) ctx).map (fun r => (r.entries, r.menuOffset)) =
      some ([], 0) := by
  unfold TabCompleter.AutoComplete
  rw [sliceTo_nat, if_pos hc]
  simp only
  by_cases he : (env.Split (text.take cursor)).2 ≠ none
  · rw [if_pos he]; rfl
  · rw [if_neg he]
    by_cases h0 : (env.Split (text.take cursor)).1.length = 0
    · rw [if_pos h0]; rfl
    · rw [if_neg h0]
      rcases hbad with hb | hb | ⟨i, hlen, hrej⟩
      · exact absurd hb he
      · rw [hb] at h0; exact absurd rfl h0
      · obtain ⟨ctx1, hloop⟩ := autoCompleteLoop_rejected env (text.take cursor)
          (completionTokens env (text.take cursor)) i _ _ ctx hlen hrej
        unfold completionTokens at hloop
        rw [hloop]
        rfl

/-- C8 for the chain `move` over `x`, `y`, `z` at the text `"bogus x"`, whose
first token is rejected. -/
theorem autoComplete_bad_input_witness :
    ((moveChain 1 "axis".toList none none none).AutoComplete stdEnv "bogus x".toList 7 []).map
      (fun r => (r.entries, r.menuOffset)) = some ([], 0) :=
  autoComplete_bad_input stdEnv (moveChain 1 "axis".toList none none none) "bogus x".toList 7 []
    (by decide) (Or.inr (Or.inr ⟨0, by decide, by rfl⟩))

/-! ## `Parse` (C9, C10) -/

theorem match_reject_ctx (env : Env) (c : TokenCompleter) (token : Str) (ctx : CommandContext)
    (r : MatchResult) (h : c.Match env token ctx = some r) (hok : r.ok = false) : r.ctx = ctx := by
  cases c with
  | command key reg cm =>
    simp only [TokenCompleter.Match, CommandTokenCompleter.Match] at h
    split at h
    · cases h; rfl
    · split at h
      · cases h
      · cases h; cases hok
  | static key reg =>
    simp only [TokenCompleter.Match, StaticTokenCompleter.Match] at h
    split at h
    · cases h; rfl
    · cases h; cases hok
  | bool key nxt =>
    simp only [TokenCompleter.Match, BoolTokenCompleter.Match] at h
    cases h; cases hok
  | color key nxt =>
    simp only [TokenCompleter.Match, ColorTokenCompleter.Match] at h
    split at h
    · cases h; rfl
    · cases h; cases hok
  | file key nxt =>
    simp only [TokenCompleter.Match, FileTokenCompleter.Match] at h
    cases h; cases hok

/-- A well-formed matcher never panics in `Match`, and its next matcher is
well-formed. -/
theorem match_wellFormed (env : Env) (c : TokenCompleter) (hwf : c.WellFormed) (token : Str)
    (ctx : CommandContext) :
    ∃ r, c.Match env token ctx = some r ∧
      (r.ok = true → ∃ o, r.next = some o ∧ ∀ n, o = some n → n.WellFormed) := by
  cases hwf with
  | command key reg cm h1 h2 =>
    simp only [TokenCompleter.Match, CommandTokenCompleter.Match]
    cases hc : mapGet cm (ToLower token) with
    | none => exact ⟨_, rfl, fun h => by cases h⟩
    | some name =>
      obtain ⟨cmd, hcmd⟩ := Option.isSome_iff_exists.mp (h1 _ _ hc)
      simp only [hcmd]
      refine ⟨_, rfl, fun _ => ⟨_, rfl, ?_⟩⟩
      intro n hn
      exact h2 name cmd _ n hcmd hn
  | static key reg h1 =>
    simp only [TokenCompleter.Match, StaticTokenCompleter.Match]
    cases hc : mapGet (StaticTokenCompleter.buildCaseMap reg) (ToLower token) with
    | none => exact ⟨_, rfl, fun h => by cases h⟩
    | some name =>
      refine ⟨_, rfl, fun _ => ⟨_, rfl, ?_⟩⟩
      intro n hn
      cases hg : mapGet reg name with
      | none => rw [hg] at hn; cases hn
      | some o =>
        rw [hg] at hn
        simp only [Option.getD_some] at hn
        subst hn
        exact h1 name n hg
  | bool key nxt h1 =>
    exact ⟨_, rfl, fun _ => ⟨_, rfl, fun n hn => h1 n hn⟩⟩
  | color key nxt h1 =>
    simp only [TokenCompleter.Match, ColorTokenCompleter.Match]
    split
    · exact ⟨_, rfl, fun h => by cases h⟩
    · exact ⟨_, rfl, fun _ => ⟨_, rfl, fun n hn => h1 n hn⟩⟩
  | file key nxt h1 =>
    exact ⟨_, rfl, fun _ => ⟨_, rfl, fun n hn => h1 n hn⟩⟩

/-- The loop of `Parse` returns on a well-formed matcher. -/
theorem parseLoop_total (env : Env) (tokens : List Str) :
    ∀ (c : TokenCompleter) (ctx : CommandContext), c.WellFormed →
      ∃ ctx1, parseLoop env c tokens ctx = some ctx1 := by
  induction tokens with
  | nil => intro c ctx _; exact ⟨ctx, rfl⟩
  | cons token rest ih =>
    intro c ctx hwf
    obtain ⟨r, hm, hnext⟩ := match_wellFormed env c hwf token ctx
    unfold parseLoop
    rw [hm]
    simp only
    by_cases hok : r.ok = false
    · rw [if_pos hok]; exact ⟨_, rfl⟩
    · rw [if_neg hok]
      obtain ⟨o, ho, hwfn⟩ := hnext (by simpa using hok)
      rw [ho]
      cases o with
      | none => exact ⟨_, rfl⟩
      | some n => exact ih n r.ctx (hwfn n rfl)

theorem parseLoop_rejected (env : Env) (i : Nat) :
    ∀ (c : TokenCompleter) (tokens : List Str) (ctx : CommandContext),
      rejectedAt env c tokens ctx i = true →
      ∃ ctx1, parseLoop env c tokens ctx = some ctx1 ∧
        parseLoop env c (tokens.take i) ctx = some ctx1 ∧ (i = 0 → ctx1 = ctx) := by
  induction i with
  | zero =>
    intro c tokens ctx hrej
    cases tokens with
    | nil => cases hrej
    | cons token rest =>
      unfold rejectedAt at hrej
      cases hm : c.Match env token ctx with
      | none => rw [hm] at hrej; cases hrej
      | some r =>
        rw [hm] at hrej
        have hok : r.ok = false := by simpa using hrej
        have hctx := match_reject_ctx env c token ctx r hm hok
        refine ⟨ctx, ?_, rfl, fun _ => rfl⟩
        unfold parseLoop
        rw [hm]
        simp only [hok, if_true, hctx]
  | succ i ih =>
    intro c tokens ctx hrej
    cases tokens with
    | nil => cases hrej
    | cons token rest =>
      unfold rejectedAt at hrej
      cases hm : c.Match env token ctx with
      | none => rw [hm] at hrej; cases hrej
      | some r =>
        rw [hm] at hrej
        simp only [Bool.and_eq_true] at hrej
        obtain ⟨hok, hnext⟩ := hrej
        have hok2 : ¬ r.ok = false := by rw [hok]; simp
        cases hn : r.next with
        | none => rw [hn] at hnext; cases hnext
        | some o =>
          cases o with
          | none => rw [hn] at hnext; cases hnext
          | some next =>
            rw [hn] at hnext
            obtain ⟨ctx1, h1, h2, _⟩ := ih next rest r.ctx hnext
            refine ⟨ctx1, ?_, ?_, fun h => by cases h⟩
            · unfold parseLoop
              rw [hm]
              simp only [if_neg hok2, hn]
              exact h1
            · rw [List.take_succ_cons]
              unfold parseLoop
              rw [hm]
              simp only [if_neg hok2, hn]
              exact h2

/-- A registry built by `RegisterCommand` is well-formed when the completers
of the registered commands are. -/
theorem registerAll_wellFormed (regs : List (Str × Command))
    (h : ∀ r ∈ regs, ∀ ctx c, r.2.GetCompleter ctx = some c → c.WellFormed) :
    (registerAll regs).completer.toTokenCompleter.WellFormed := by
  refine TokenCompleter.WellFormed.command _ _ _ ?_ ?_
  · intro k v hkv
    exact (mapGet_isSome_iff _ _).mpr
      ((mem_registry_keys regs v).mpr (caseMap_get regs k v hkv).2)
  · intro n cmd ctx c hn hc
    exact h (n, cmd) (registry_get regs n cmd hn) ctx c hc

/-- The chain `move` over `x`, `y`, `z` is well-formed. -/
theorem moveChain_wellFormed :
    (moveChain 1 "axis".toList none none none).completer.toTokenCompleter.WellFormed := by
  refine TokenCompleter.WellFormed.command _ _ _ ?_ ?_
  · intro k v h
    have hv : v = "move".toList := by
      simp only [moveChain, TabCompleter.RegisterCommand, NewTabCompleter, mapSet, mapGet] at h
      split at h
      · cases h; rfl
      · cases h
    subst hv
    rfl
  · intro n cmd ctx c h hg
    simp only [moveChain, TabCompleter.RegisterCommand, NewTabCompleter, mapSet, mapGet] at h
    split at h
    · cases h
      cases hg
      refine TokenCompleter.WellFormed.static _ _ ?_
      intro n2 c2 h2
      simp only [axisRegistry, mapGet] at h2
      repeat' split at h2
      all_goals cases h2
    · cases h

/-- C9: `Parse` returns the `NoInput` error exactly when tokenizing the text
yields no token; for every text with at least one token it returns no error,
whatever `Match` rejects along the chain. -/
theorem parse_noInput_iff (env : Env) (t : TabCompleter) (text : Str) (ctx : CommandContext)
    (hwf : t.completer.toTokenCompleter.WellFormed) :
    ((t.Parse env text ctx).map Prod.fst = some (some "NoInput".toList) ↔
        (env.Split text).1 = []) ∧
      ((env.Split text).1 ≠ [] → (t.Parse env text ctx).map Prod.fst = some none) := by
  have hpos : (env.Split text).1 ≠ [] → (t.Parse env text ctx).map Prod.fst = some none := by
    intro hne
    have h0 : ¬ (env.Split text).1.length = 0 := fun e => hne (List.length_eq_zero.mp e)
    obtain ⟨ctx1, h1⟩ := parseLoop_total env (env.Split text).1 _ ctx hwf
    unfold TabCompleter.Parse
    simp only [if_neg h0, h1]
    rfl
  refine ⟨⟨?_, ?_⟩, hpos⟩
  · intro h
    by_contra hne
    rw [hpos hne] at h
    cases h
  · intro he
    unfold TabCompleter.Parse
    simp only [he, List.length_nil, if_true]
    rfl

/-- C9 for the chain `move` over `x`, `y`, `z` at the text `"move bogus z"`,
whose second token is rejected. -/
theorem parse_noInput_iff_witness :
    ((moveChain 1 "axis".toList none none none).Parse stdEnv "move bogus z".toList []).map
      Prod.fst = some none :=
  (parse_noInput_iff stdEnv (moveChain 1 "axis".toList none none none) "move bogus z".toList []
    moveChain_wellFormed).2 (by decide)

/-- C10: when token `i` is the first one rejected by `Match`, `Parse`
returns without error and leaves the context that `Parse` leaves on the
first `i` tokens alone, which is the given context when `i = 0`; and when
the first token is not a registered command, the context is left
unchanged. -/
theorem parse_context_of_rejected (env : Env) (t : TabCompleter) (text1 text2 : Str)
    (ctx : CommandContext) (i : Nat)
    (hrej : rejectedAt env t.completer.toTokenCompleter (env.Split text1).1 ctx i = true)
    (h2 : (env.Split text2).1 = (env.Split text1).1.take i) :
    (t.Parse env text1 ctx).map Prod.fst = some none ∧
      (t.Parse env text2 ctx).map Prod.snd = (t.Parse env text1 ctx).map Prod.snd ∧
      (i = 0 → t.Parse env text1 ctx = some (none, ctx)) ∧
      (∀ text token rest, (env.Split text).1 = token :: rest →
        mapGet t.completer.caseMap (ToLower token) = none →
        t.Parse env text ctx = some (none, ctx)) := by
  obtain ⟨ctx1, h1, hp, hz⟩ := parseLoop_rejected env i _ _ ctx hrej
  have hne : ¬ (env.Split text1).1.length = 0 := by
    intro e
    rw [List.length_eq_zero.mp e] at hrej
    cases hrej
  have hparse1 : t.Parse env text1 ctx = some (none, ctx1) := by
    unfold TabCompleter.Parse
    simp only [if_neg hne, h1]
  refine ⟨by rw [hparse1]; rfl, ?_, ?_, ?_⟩
  · rw [hparse1]
    unfold TabCompleter.Parse
    simp only [h2]
    by_cases h0 : ((env.Split text1).1.take i).length = 0
    · rw [if_pos h0]
      have hi : i = 0 := by
        rw [List.length_take] at h0
        omega
      rw [hz hi]
      rfl
    · rw [if_neg h0, hp]
  · intro hi
    rw [hparse1, hz hi]
  · intro text token rest hs hnone
    unfold TabCompleter.Parse
    simp only [hs, List.length_cons, Nat.succ_ne_zero, if_false, parseLoop,
      CommandTokenCompleter.toTokenCompleter, TokenCompleter.Match, CommandTokenCompleter.Match,
      hnone, if_true]

/-- C10 for the chain `move` over `x`, `y`, `z` at the texts `"move bogus z"`,
whose second token is the first one rejected, and `"move"`. -/
theorem parse_context_of_rejected_witness :
    ((moveChain 1 "axis".toList none none none).Parse stdEnv "move".toList []).map Prod.snd =
      ((moveChain 1 "axis".toList none none none).Parse stdEnv "move bogus z".toList []).map
        Prod.snd :=
  (parse_context_of_rejected stdEnv (moveChain 1 "axis".toList none none none) "move bogus z".toList
    "move".toList [] 1 (by rfl) (by decide)).2.1

/-! ## The case-insensitive index -/

theorem buildCaseMap_eq (reg : List (Str × Option TokenCompleter)) :
    StaticTokenCompleter.buildCaseMap reg = caseIndex (mapKeys reg) := rfl

theorem caseIndex_snoc (l : List Str) (a : Str) :
    caseIndex (l ++ [a]) = mapSet (caseIndex l) (ToLower a) a := by
  simp [caseIndex, List.foldl_append]

theorem registerAll_caseMap (regs : List (Str × Command)) :
    (registerAll regs).completer.caseMap = caseIndex (registeredNames regs) := by
  induction regs using List.reverseRecOn with
  | nil => rfl
  | append_singleton regs r ih =>
    rw [registerAll_snoc, registeredNames_snoc, caseIndex_snoc, ← ih]
    rfl

theorem mem_caseIndex_keys (l : List Str) (k : Str) :
    k ∈ mapKeys (caseIndex l) ↔ k ∈ l.map ToLower := by
  induction l using List.reverseRecOn with
  | nil => simp [caseIndex, mapKeys]
  | append_singleton l a ih =>
    rw [caseIndex_snoc, mem_mapKeys_mapSet, ih, List.map_append, List.mem_append,
      List.map_singleton, List.mem_singleton]

theorem nodup_caseIndex_keys (l : List Str) : (mapKeys (caseIndex l)).Nodup := by
  induction l using List.reverseRecOn with
  | nil => simp [caseIndex, mapKeys]
  | append_singleton l a ih =>
    rw [caseIndex_snoc]
    exact nodup_mapKeys_mapSet _ _ _ ih

theorem caseIndex_entry (l : List Str) (k v : Str) (h : (k, v) ∈ caseIndex l) :
    k = ToLower v ∧ v ∈ l := by
  induction l using List.reverseRecOn with
  | nil => simp [caseIndex] at h
  | append_singleton l a ih =>
    rw [caseIndex_snoc] at h
    rcases mem_mapSet _ _ _ _ h with h1 | h1
    · exact ⟨(ih h1).1, List.mem_append_left _ (ih h1).2⟩
    · cases h1
      exact ⟨rfl, List.mem_append_right _ (List.mem_singleton_self _)⟩

theorem caseIndex_get (l : List Str) (k v : Str) (h : mapGet (caseIndex l) k = some v) :
    k = ToLower v ∧ v ∈ l :=
  caseIndex_entry l k v (mem_of_mapGet _ _ _ h)

/-- When the names are pairwise distinct ignoring case, the index maps the
lower-cased form of each name to that name. -/
theorem caseIndex_get_of_distinct (l : List Str) (hd : DistinctIgnoringCase l) (n : Str)
    (hn : n ∈ l) : mapGet (caseIndex l) (ToLower n) = some n := by
  induction l using List.reverseRecOn with
  | nil => cases hn
  | append_singleton l a ih =>
    rw [caseIndex_snoc]
    by_cases he : ToLower a = ToLower n
    · have : a = n := hd a (List.mem_append_right _ (List.mem_singleton_self _)) n hn he
      subst this
      exact mapGet_mapSet_same _ _ _
    · rw [mapGet_mapSet_ne _ _ _ _ he]
      have hn2 : n ∈ l := by
        rcases List.mem_append.mp hn with h | h
        · exact h
        · rw [List.mem_singleton] at h
          exact absurd (by rw [h]) he
      exact ih (fun x hx y hy => hd x (List.mem_append_left _ hx) y (List.mem_append_left _ hy))
        hn2

theorem distinct_of_nodup (l : List Str) (h : (l.map ToLower).Nodup) :
    DistinctIgnoringCase l :=
  fun _ ha _ hb he => List.inj_on_of_nodup_map h ha hb he

theorem sortStrings_congr (l1 l2 : List Str) (h : l1.Perm l2) :
    sortStrings l1 = sortStrings l2 :=
  List.eq_of_perm_of_sorted
    (((List.perm_insertionSort _ l1).trans h).trans (List.perm_insertionSort _ l2).symm)
    (List.sorted_insertionSort _ l1) (List.sorted_insertionSort _ l2)

/-- `Complete` depends on the index as a map only, not on the order in which
it is enumerated. -/
theorem complete_congr (c1 c2 : CommandTokenCompleter) (token : Str) (ctx1 ctx2 : CommandContext)
    (h1 : (mapKeys c1.caseMap).Nodup) (h2 : (mapKeys c2.caseMap).Nodup)
    (hl : ∀ k, mapGet c1.caseMap k = mapGet c2.caseMap k) :
    c1.Complete token ctx1 = c2.Complete token ctx2 := by
  have hmem : ∀ k, k ∈ mapKeys c1.caseMap ↔ k ∈ mapKeys c2.caseMap := by
    intro k
    rw [← mapGet_isSome_iff, ← mapGet_isSome_iff, hl]
  have hperm : (mapKeys c1.caseMap).Perm (mapKeys c2.caseMap) :=
    (List.perm_ext_iff_of_nodup h1 h2).mpr hmem
  rw [CommandTokenCompleter.Complete_eq, CommandTokenCompleter.Complete_eq,
    sortStrings_congr _ _ hperm]
  have hfun : (fun k => (mapGet c1.caseMap k).getD []) = fun k => (mapGet c2.caseMap k).getD [] := by
    funext k; rw [hl]
  rw [hfun]
  congr 1
  exact decide_eq_decide.mpr (hmem _)

/-- The index of names that are pairwise distinct ignoring case does not
depend on the order in which the names are entered. -/
theorem caseIndex_congr (l1 l2 : List Str) (hm : ∀ n, n ∈ l1 ↔ n ∈ l2)
    (hd : DistinctIgnoringCase l1) (k : Str) :
    mapGet (caseIndex l1) k = mapGet (caseIndex l2) k := by
  have hd2 : DistinctIgnoringCase l2 :=
    fun a ha b hb he => hd a ((hm a).mpr ha) b ((hm b).mpr hb) he
  by_cases hk : k ∈ l1.map ToLower
  · obtain ⟨n, hn, rfl⟩ := List.mem_map.mp hk
    rw [caseIndex_get_of_distinct l1 hd n hn, caseIndex_get_of_distinct l2 hd2 n ((hm n).mp hn)]
  · have hk2 : k ∉ l2.map ToLower := by
      intro h
      obtain ⟨n, hn, rfl⟩ := List.mem_map.mp h
      exact hk (List.mem_map_of_mem ToLower ((hm n).mpr hn))
    rw [(mapGet_eq_none_iff _ _).mpr (by rw [mem_caseIndex_keys]; exact hk),
      (mapGet_eq_none_iff _ _).mpr (by rw [mem_caseIndex_keys]; exact hk2)]

theorem nodup_registry_keys (regs : List (Str × Command)) :
    (mapKeys (registerAll regs).completer.Registry).Nodup := by
  induction regs using List.reverseRecOn with
  | nil => simp [registerAll, NewTabCompleter, mapKeys]
  | append_singleton regs r ih =>
    rw [registerAll_snoc]
    exact nodup_mapKeys_mapSet _ _ _ ih

/-- The candidates of `Complete` over the index of the names `l`. -/
theorem mem_complete_index (c : CommandTokenCompleter) (l : List Str)
    (hc : c.caseMap = caseIndex l) (token : Str) (ctx : CommandContext) (n : Str) :
    n ∈ (c.Complete token ctx).1 ↔
      ∃ k, HasPrefix k (ToLower token) = true ∧ mapGet (caseIndex l) k = some n := by
  rw [CommandTokenCompleter.Complete_eq, hc]
  simp only [List.mem_map, List.mem_filter, mem_sortStrings]
  constructor
  · rintro ⟨k, ⟨hk, hp⟩, hv⟩
    obtain ⟨v, hv2⟩ := Option.isSome_iff_exists.mp ((mapGet_isSome_iff _ _).mpr hk)
    rw [hv2] at hv
    exact ⟨k, hp, by rw [hv2]; exact congrArg some hv⟩
  · rintro ⟨k, hp, hv⟩
    refine ⟨k, ⟨?_, hp⟩, by rw [hv]; rfl⟩
    exact (mapGet_isSome_iff _ _).mp (by rw [hv]; rfl)

/-- The match flag of `Complete` over the index of the names `l`: some
candidate equals the token ignoring case. -/
theorem complete_flag_index (c : CommandTokenCompleter) (l : List Str)
    (hc : c.caseMap = caseIndex l) (token : Str) (ctx : CommandContext) :
    (c.Complete token ctx).2 = true ↔
      ∃ n ∈ (c.Complete token ctx).1, ToLower n = ToLower token := by
  constructor
  · intro h
    rw [CommandTokenCompleter.Complete_eq, hc] at h
    have hk : ToLower token ∈ mapKeys (caseIndex l) := of_decide_eq_true h
    obtain ⟨v, hv⟩ := Option.isSome_iff_exists.mp ((mapGet_isSome_iff _ _).mpr hk)
    exact ⟨v, (mem_complete_index c l hc token ctx v).mpr ⟨_, HasPrefix_self _, hv⟩,
      (caseIndex_get l _ _ hv).1.symm⟩
  · rintro ⟨n, hn, he⟩
    obtain ⟨k, _, hv⟩ := (mem_complete_index c l hc token ctx n).mp hn
    have hk := (caseIndex_get l k n hv).1
    rw [CommandTokenCompleter.Complete_eq, hc]
    apply decide_eq_true
    rw [← he, ← hk]
    exact (mapGet_isSome_iff _ _).mp (by rw [hv]; rfl)

/-! ## Static dispatch and the command registry (C13) -/

/-- C13: for names that are pairwise distinct ignoring case,
`StaticTokenCompleter.Complete` over a mapping with those names as keys
returns the same candidates and the same match flag as
`CommandTokenCompleter.Complete` over a registry in which exactly those
names were registered. -/
theorem static_complete_eq_command (sreg : List (Str × Option TokenCompleter))
    (regs : List (Str × Command)) (token : Str) (ctx1 ctx2 : CommandContext)
    (hm : ∀ n, n ∈ mapKeys sreg ↔ n ∈ registeredNames regs)
    (hd : DistinctIgnoringCase (mapKeys sreg)) :
    StaticTokenCompleter.Complete sreg token ctx1 =
      (registerAll regs).completer.Complete token ctx2 := by
  have hs : StaticTokenCompleter.Complete sreg token ctx1 =
      CommandTokenCompleter.Complete
        { ContextKey := [], Registry := [], caseMap := caseIndex (mapKeys sreg) } token ctx1 := rfl
  rw [hs]
  apply complete_congr
  · exact nodup_caseIndex_keys _
  · exact nodup_caseMap_keys regs
  · intro k
    rw [registerAll_caseMap]
    exact caseIndex_congr _ _ hm hd k

/-- C13 for the mapping over `x`, `y`, `z` and the registrations `z`, `x`,
`y`, at the token `Y`. -/
theorem static_complete_eq_command_witness :
    StaticTokenCompleter.Complete (axisRegistry none none none) "Y".toList [] =
      (registerAll axisRegs).completer.Complete "Y".toList [] :=
  static_complete_eq_command (axisRegistry none none none) axisRegs "Y".toList [] []
    (by
      intro n
      show n ∈ ["x".toList, "y".toList, "z".toList] ↔ n ∈ ["z".toList, "x".toList, "y".toList]
      simp only [List.mem_cons, List.mem_singleton, List.not_mem_nil, or_false]
      tauto)
    (by decide)

/-! ## Static match (C14) -/

/-- C14: for a mapping whose keys are pairwise distinct ignoring case,
`StaticTokenCompleter.Match` accepts exactly when some key equals the token
ignoring case; it then writes that key, in the casing of the mapping, into
the context under the configured key, returns it as the matched token and
returns the matcher mapped to it as next; on rejection the context is
unchanged. -/
theorem static_match_canonical (key : Str) (reg : List (Str × Option TokenCompleter))
    (token : Str) (ctx : CommandContext) (hd : DistinctIgnoringCase (mapKeys reg)) :
    ((StaticTokenCompleter.Match key reg token ctx).ok = true ↔
        ∃ n ∈ mapKeys reg, ToLower n = ToLower token) ∧
      (∀ n ∈ mapKeys reg, ToLower n = ToLower token →
        (StaticTokenCompleter.Match key reg token ctx).ok = true ∧
        (StaticTokenCompleter.Match key reg token ctx).token = n ∧
        (StaticTokenCompleter.Match key reg token ctx).ctx = mapSet ctx key (.str n) ∧
        ∃ m, mapGet reg n = some m ∧
          (StaticTokenCompleter.Match key reg token ctx).next = some m) ∧
      ((StaticTokenCompleter.Match key reg token ctx).ok = false →
        (StaticTokenCompleter.Match key reg token ctx).ctx = ctx ∧
        (StaticTokenCompleter.Match key reg token ctx).next = none ∧
        (StaticTokenCompleter.Match key reg token ctx).token = []) := by
  have hacc : ∀ n ∈ mapKeys reg, ToLower n = ToLower token →
      (StaticTokenCompleter.Match key reg token ctx).ok = true ∧
      (StaticTokenCompleter.Match key reg token ctx).token = n ∧
      (StaticTokenCompleter.Match key reg token ctx).ctx = mapSet ctx key (.str n) ∧
      ∃ m, mapGet reg n = some m ∧
        (StaticTokenCompleter.Match key reg token ctx).next = some m := by
    intro n hn he
    have hg : mapGet (StaticTokenCompleter.buildCaseMap reg) (ToLower token) = some n := by
      rw [buildCaseMap_eq, ← he]
      exact caseIndex_get_of_distinct _ hd n hn
    obtain ⟨m, hm⟩ := Option.isSome_iff_exists.mp ((mapGet_isSome_iff reg n).mpr hn)
    simp only [StaticTokenCompleter.Match, hg, hm, Option.getD_some]
    exact ⟨trivial, trivial, trivial, m, rfl, rfl⟩
  refine ⟨⟨?_, ?_⟩, hacc, ?_⟩
  · intro hok
    cases hg : mapGet (StaticTokenCompleter.buildCaseMap reg) (ToLower token) with
    | none => simp [StaticTokenCompleter.Match, hg] at hok
    | some n =>
      rw [buildCaseMap_eq] at hg
      obtain ⟨h1, h2⟩ := caseIndex_get _ _ _ hg
      exact ⟨n, h2, h1.symm⟩
  · rintro ⟨n, hn, he⟩
    exact (hacc n hn he).1
  · intro hok
    cases hg : mapGet (StaticTokenCompleter.buildCaseMap reg) (ToLower token) with
    | none => simp [StaticTokenCompleter.Match, hg]
    | some n => simp [StaticTokenCompleter.Match, hg] at hok

/-- C14 for the mapping over `x`, `y`, `z` at the token `Y`. -/
theorem static_match_canonical_witness :
    (StaticTokenCompleter.Match "axis".toList (axisRegistry none none none) "Y".toList []).ok =
        true ∧
      (StaticTokenCompleter.Match "axis".toList (axisRegistry none none none) "Y".toList
        []).token = "y".toList ∧
      (StaticTokenCompleter.Match "axis".toList (axisRegistry none none none) "Y".toList []).ctx =
        mapSet [] "axis".toList (.str "y".toList) :=
  have h := (static_match_canonical "axis".toList (axisRegistry none none none) "Y".toList []
    (by decide)).2.1 "y".toList (by decide) (by decide)
  ⟨h.1, h.2.1, h.2.2.1⟩

/-! ## The exact-match flag (C16) -/

/-- C16, as stated, fails for a token in another casing: with `Move`
registered, the token `MOVE` gets `exactMatch = true` although the only
candidate is `Move`; the boolean matcher does the same at `TRUE`. -/
theorem complete_flag_counterexample :
    (registerAll sampleRegs).completer.Complete "MOVE".toList [] = (["Move".toList], true) ∧
      "MOVE".toList ∉ ((registerAll sampleRegs).completer.Complete "MOVE".toList []).1 ∧
      BoolTokenCompleter.Complete "TRUE".toList [] = (["true".toList], true) ∧
      "TRUE".toList ∉ (BoolTokenCompleter.Complete "TRUE".toList []).1 := by
  decide

/-- C16, amended: for the command registry, static dispatch and boolean
matchers, `Complete` reports `exactMatch = true` exactly when some candidate
it returns equals the token ignoring case (after lower-casing both). -/
theorem complete_flag_iff (regs : List (Str × Command))
    (sreg : List (Str × Option TokenCompleter)) (token : Str) (ctx : CommandContext) :
    (((registerAll regs).completer.Complete token ctx).2 = true ↔
        ∃ n ∈ ((registerAll regs).completer.Complete token ctx).1, ToLower n = ToLower token) ∧
      ((StaticTokenCompleter.Complete sreg token ctx).2 = true ↔
        ∃ n ∈ (StaticTokenCompleter.Complete sreg token ctx).1, ToLower n = ToLower token) ∧
      ((BoolTokenCompleter.Complete token ctx).2 = true ↔
        ∃ n ∈ (BoolTokenCompleter.Complete token ctx).1, ToLower n = ToLower token) := by
  refine ⟨complete_flag_index _ _ (registerAll_caseMap regs) token ctx, ?_, ?_⟩
  · exact complete_flag_index
      { ContextKey := [], Registry := [], caseMap := caseIndex (mapKeys sreg) } _ rfl token ctx
  · have hb : BoolTokenCompleter.Complete token ctx =
        ((["false".toList, "true".toList].filter (fun n => HasPrefix n (ToLower token))).map
          (fun lower => lower),
          decide (ToLower token ∈ ["false".toList, "true".toList])) := by
      unfold BoolTokenCompleter.Complete
      simp only [foldl_completeStep, List.nil_append, Bool.false_or]
    have hfix : ∀ n ∈ ["false".toList, "true".toList], ToLower n = n := by decide
    rw [hb]
    simp only [List.map_id', decide_eq_true_eq]
    constructor
    · intro h
      refine ⟨ToLower token, ?_, hfix _ h⟩
      exact List.mem_filter.mpr ⟨h, HasPrefix_self _⟩
    · rintro ⟨n, hn, he⟩
      have hn2 := List.mem_of_mem_filter hn
      rw [← he, hfix n hn2]
      exact hn2

/-! ## The index and the registry (C20) -/

/-- C20: after any sequence of `RegisterCommand` calls, every entry `(k, v)`
of the case-insensitive index has `k = lower(v)` and `v` a key of
`Registry`; every candidate returned by `CommandTokenCompleter.Complete` is
accepted by `CommandTokenCompleter.Match`; and `Match` never fails: a hit
resolves to a command that is present in `Registry`. -/
theorem caseMap_consistent (regs : List (Str × Command)) :
    (∀ k v, (k, v) ∈ (registerAll regs).completer.caseMap →
        k = ToLower v ∧ v ∈ mapKeys (registerAll regs).completer.Registry) ∧
      (∀ token ctx n ctx1, n ∈ ((registerAll regs).completer.Complete token ctx).1 →
        ((registerAll regs).completer.Match n ctx1).map (fun r => r.ok) = some true) ∧
      (∀ token key, mapGet (registerAll regs).completer.caseMap (ToLower token) = some key →
        (mapGet (registerAll regs).completer.Registry key).isSome = true) ∧
      (∀ token ctx, ((registerAll regs).completer.Match token ctx).isSome = true) := by
  have hkey : ∀ k key, mapGet (registerAll regs).completer.caseMap k = some key →
      (mapGet (registerAll regs).completer.Registry key).isSome = true := by
    intro k key h
    exact (mapGet_isSome_iff _ _).mpr ((mem_registry_keys regs key).mpr (caseMap_get regs k key h).2)
  refine ⟨?_, ?_, fun token key h => hkey _ key h, ?_⟩
  · intro k v h
    obtain ⟨h1, h2⟩ := caseMap_entry regs k v h
    exact ⟨h1, (mem_registry_keys regs v).mpr h2⟩
  · intro token ctx n ctx1 hn
    obtain ⟨k, _, hv⟩ := (mem_complete regs token ctx n).mp hn
    have hk := (caseMap_get regs k n hv).1
    rw [hk] at hv
    obtain ⟨cmd, hcmd⟩ := Option.isSome_iff_exists.mp (hkey _ n hv)
    simp only [CommandTokenCompleter.Match, hv, hcmd, Option.map_some']
  · intro token ctx
    unfold CommandTokenCompleter.Match
    cases hc : mapGet (registerAll regs).completer.caseMap (ToLower token) with
    | none => rfl
    | some key =>
      obtain ⟨cmd, hcmd⟩ := Option.isSome_iff_exists.mp (hkey _ key hc)
      simp only [hcmd]
      rfl

/-! ## The walk to the last token -/

theorem autoCompleteLoop_of_walk (env : Env) (inText : Str) (tokens : List Str) :
    ∀ (rest : List Str) (c : TokenCompleter) (ctx : CommandContext) (c1 : TokenCompleter)
      (ctx1 : CommandContext), walkToLast env c rest ctx = some (c1, ctx1) →
      autoCompleteLoop env inText tokens c rest ctx =
        some ((c1.Complete env (rest.getLast?.getD []) ctx1).1,
          LastIndex inText (tokens.getD (tokens.length - 1) []), ctx1) := by
  intro rest
  induction rest with
  | nil => intro c ctx c1 ctx1 h; cases h
  | cons token rest ih =>
    intro c ctx c1 ctx1 h
    unfold walkToLast at h
    unfold autoCompleteLoop
    by_cases hr : rest = []
    · rw [if_pos hr] at h
      rw [if_pos hr]
      cases h
      subst hr
      rfl
    · rw [if_neg hr] at h
      rw [if_neg hr]
      cases hm : c.Match env token ctx with
      | none => rw [hm] at h; cases h
      | some r =>
        rw [hm] at h
        simp only at h ⊢
        by_cases hok : r.ok = false
        · rw [if_pos hok] at h; cases h
        · rw [if_neg hok] at h
          rw [if_neg hok]
          cases hn : r.next with
          | none => rw [hn] at h; cases h
          | some o =>
            cases o with
            | none => rw [hn] at h; cases h
            | some next =>
              rw [hn] at h
              simp only at h ⊢
              rw [ih next r.ctx c1 ctx1 h]
              cases rest with
              | nil => exact absurd rfl hr
              | cons a rest2 => rw [List.getLast?_cons_cons]

theorem HasSuffix_iff (s suf : Str) : HasSuffix s suf = true ↔ suf <:+ s := by
  unfold HasSuffix; exact List.isSuffixOf_iff_suffix

/-- A suffix of a text has its last occurrence where it starts as a
suffix. -/
theorem isLast_of_suffix (s sub : Str) (h : HasSuffix s sub = true) :
    IsLastOccurrence s sub (s.length - sub.length) := by
  obtain ⟨t, ht⟩ := (HasSuffix_iff s sub).mp h
  subst ht
  have hk : (t ++ sub).length - sub.length = t.length := by
    rw [List.length_append]; omega
  rw [hk]
  refine ⟨by rw [List.length_append]; omega, ?_, ?_⟩
  · rw [List.drop_left]
    exact HasPrefix_self _
  · intro j hj hlt
    have hj2 : j < (t ++ sub).length + 1 := List.mem_range.mp hj
    cases hp : HasPrefix (List.drop j (t ++ sub)) sub with
    | false => rfl
    | true =>
      exfalso
      have hle := ((HasPrefix_iff _ _).mp hp).length_le
      rw [List.length_drop, List.length_append] at hle
      rw [List.length_append] at hj2
      omega

theorem autoCompleteLoop_offset (env : Env) (inText : Str) (tokens : List Str) :
    ∀ (rest : List Str) (c : TokenCompleter) (ctx : CommandContext) (e : List Str) (o : Int)
      (ctx1 : CommandContext), autoCompleteLoop env inText tokens c rest ctx = some (e, o, ctx1) →
      o = 0 ∨ o = LastIndex inText (tokens.getD (tokens.length - 1) []) := by
  intro rest
  induction rest with
  | nil =>
    intro c ctx e o ctx1 h
    simp only [autoCompleteLoop] at h
    cases h
    exact Or.inl rfl
  | cons token rest ih =>
    intro c ctx e o ctx1 h
    unfold autoCompleteLoop at h
    by_cases hr : rest = []
    · rw [if_pos hr] at h
      cases h
      exact Or.inr rfl
    · rw [if_neg hr] at h
      cases hm : c.Match env token ctx with
      | none => rw [hm] at h; cases h
      | some r =>
        rw [hm] at h
        simp only at h
        by_cases hok : r.ok = false
        · rw [if_pos hok] at h
          cases h
          exact Or.inl rfl
        · rw [if_neg hok] at h
          cases hn : r.next with
          | none => rw [hn] at h; cases h
          | some o2 =>
            cases o2 with
            | none =>
              rw [hn] at h
              cases h
              exact Or.inl rfl
            | some next =>
              rw [hn] at h
              exact ih next r.ctx e o ctx1 h

/-! ## The recorded tokens (C15) -/

/-- C15, as stated, fails for white space other than the blank: the text
`"move\t"` ends in a tab, which the tokenizer treats as a separator, but the
recorded tokens are `move` alone and `Complete` is called on `move`. -/
theorem recorded_tokens_counterexample :
    ((moveChain 1 "axis".toList none none none).AutoComplete stdEnv "move\t".toList 5 []).map
        (fun r => (r.entries, r.t.completionState.tokens)) =
        some (["move".toList], ["move".toList]) ∧
      ("move\t".toList.take 5).getLast? = some '\t' ∧
      classifyRune '\t' = .space ∧
      ["move".toList].getLast? ≠ some [] := by
  refine ⟨rfl, by decide, by decide, by decide⟩

/-- C15, amended: when `AutoComplete` records a completion state, the
recorded tokens are a function of `text[:cursor]` alone, and whenever
`text[:cursor]` ends in a blank (the character U+0020) the recorded token
list ends with an empty token, on which `Complete` is called when the walk
reaches the last token. -/
theorem recorded_tokens_of_left_text (env : Env) (t : TabCompleter) (text : Str) (cursor : Nat)
    (ctx : CommandContext) (r : AutoCompleteResult)
    (hrun : t.AutoComplete env text (cursor : Int) ctx = some r)
    (herr : (env.Split (text.take cursor)).2 = none)
    (hne : (env.Split (text.take cursor)).1 ≠ []) :
    r.t.completionState.tokens = completionTokens env (text.take cursor) ∧
      (∀ (t2 : TabCompleter) (text2 : Str) (ctx2 : CommandContext) (r2 : AutoCompleteResult),
        t2.AutoComplete env text2 (cursor : Int) ctx2 = some r2 →
        text2.take cursor = text.take cursor →
        r2.t.completionState.tokens = r.t.completionState.tokens) ∧
      (HasSuffix (text.take cursor) [' '] = true →
        r.t.completionState.tokens.getLast? = some [] ∧
        ∀ c1 ctx1, walkToLast env t.completer.toTokenCompleter r.t.completionState.tokens ctx =
            some (c1, ctx1) →
          r.entries = (c1.Complete env [] ctx1).1) := by
  obtain ⟨_, _, hrec⟩ := autoComplete_inv env t text cursor ctx r hrun
  obtain ⟨_, _, _, htok, hloop⟩ := hrec herr hne
  refine ⟨htok, ?_, ?_⟩
  · intro t2 text2 ctx2 r2 hrun2 hpre
    obtain ⟨_, _, hrec2⟩ := autoComplete_inv env t2 text2 cursor ctx2 r2 hrun2
    rw [hpre] at hrec2
    rw [(hrec2 herr hne).2.2.2.1, htok]
  · intro hs
    have hlast : r.t.completionState.tokens.getLast? = some [] := by
      rw [htok, if_pos hs]
      simp
    refine ⟨hlast, ?_⟩
    intro c1 ctx1 hw
    have h2 := autoCompleteLoop_of_walk env (text.take cursor) r.t.completionState.tokens
      r.t.completionState.tokens _ ctx c1 ctx1 hw
    rw [hloop, hlast] at h2
    exact (Prod.mk.inj (Option.some.inj h2)).1

/-- C15 for the chain `move` over `x`, `y`, `z` at the text `"move "` and the
cursor at its end. -/
theorem recorded_tokens_of_left_text_witness :
    moveBlankResult.t.completionState.tokens = completionTokens stdEnv ("move ".toList.take 5) ∧
      moveBlankResult.t.completionState.tokens.getLast? = some [] :=
  have h := recorded_tokens_of_left_text stdEnv (moveChain 1 "axis".toList none none none)
    "move ".toList 5 [] moveBlankResult rfl rfl (by decide)
  ⟨h.1, (h.2.2 (by decide)).1⟩

/-! ## The insertion offset (C17) -/

/-- C17: on the line `set ab a\b` the last token is `ab`; it begins at
offset 7 (the text before it tokenizes to `set`, `ab` and ends between
tokens, the text from there on is that one token), its text also occurs
earlier, at offset 4, and the insertion offset returned by `AutoComplete`,
the last occurrence of `ab` in the text, is 4, not 7; applying the candidate
`ab` then removes the earlier argument. -/
theorem offset_mislocated :
    (setChain.AutoComplete stdEnv "set ab a\\b".toList 10 []).map
        (fun r => (r.entries, r.menuOffset, r.t.completionState.tokens)) =
        some (["ab".toList], 4, ["set".toList, "ab".toList, "ab".toList]) ∧
      LastIndex ("set ab a\\b".toList.take 10) "ab".toList = 4 ∧
      HasPrefix ("set ab a\\b".toList.drop 4) "ab".toList = true ∧
      shlexSplit ("set ab a\\b".toList.take 7) = (["set".toList, "ab".toList], none) ∧
      (("set ab a\\b".toList.take 7).foldl lexStep lexInit).state = .start ∧
      shlexSplit (("set ab a\\b".toList.take 10).drop 7) = (["ab".toList], none) ∧
      (("set ab a\\b".toList.drop 7).head?.map classifyRune) = some .unknown ∧
      (setChain.AutoComplete stdEnv "set ab a\\b".toList 10 []).bind
        (fun r => r.t.OnAutoCompleted stdEnv "ab".toList 0 1) =
        some (true, "set ab".toList, 6) := by
  refine ⟨rfl, by decide, by decide, by decide, by decide, by decide, by decide, rfl⟩

/-! ## The pointer returned by `Match` (C19) -/

/-- The loop of `AutoComplete` returns on a well-formed matcher. -/
theorem autoCompleteLoop_total (env : Env) (inText : Str) (tokens : List Str)
    (rest : List Str) :
    ∀ (c : TokenCompleter) (ctx : CommandContext), c.WellFormed →
      (autoCompleteLoop env inText tokens c rest ctx).isSome = true := by
  induction rest with
  | nil => intro c ctx _; rfl
  | cons token rest ih =>
    intro c ctx hwf
    unfold autoCompleteLoop
    by_cases hr : rest = []
    · rw [if_pos hr]; rfl
    · rw [if_neg hr]
      obtain ⟨r, hm, hnext⟩ := match_wellFormed env c hwf token ctx
      rw [hm]
      simp only
      by_cases hok : r.ok = false
      · rw [if_pos hok]; rfl
      · rw [if_neg hok]
        obtain ⟨o, ho, hwfn⟩ := hnext (by simpa using hok)
        rw [ho]
        cases o with
        | none => rfl
        | some n => exact ih n r.ctx (hwfn n rfl)

/-- An accepting `Match` of any of the five variants returns a non-nil
pointer. -/
theorem match_next_isSome (env : Env) (c : TokenCompleter) (token : Str) (ctx : CommandContext)
    (r : MatchResult) (h : c.Match env token ctx = some r) (hok : r.ok = true) :
    r.next.isSome = true := by
  cases c with
  | command key reg cm =>
    simp only [TokenCompleter.Match, CommandTokenCompleter.Match] at h
    split at h
    · cases h; cases hok
    · split at h
      · cases h
      · cases h; rfl
  | static key reg =>
    simp only [TokenCompleter.Match, StaticTokenCompleter.Match] at h
    split at h
    · cases h; cases hok
    · cases h; rfl
  | bool key nxt =>
    simp only [TokenCompleter.Match, BoolTokenCompleter.Match] at h
    cases h; rfl
  | color key nxt =>
    simp only [TokenCompleter.Match, ColorTokenCompleter.Match] at h
    split at h
    · cases h; cases hok
    · cases h; rfl
  | file key nxt =>
    simp only [TokenCompleter.Match, FileTokenCompleter.Match] at h
    cases h; rfl

/-- C19: for each of the five matcher variants, an accepting `Match` returns
a non-nil pointer to its next matcher (which may itself be nil), so the
dereference `*next` never fails; hence, for every well-formed grammar built
from these variants, the loops of `AutoComplete` and `Parse` never fail, and
`AutoComplete` (for a cursor within the text) and `Parse` return. -/
theorem match_pointer_nonnil (env : Env) :
    (∀ (c : TokenCompleter) token ctx r, c.Match env token ctx = some r → r.ok = true →
        r.next.isSome = true) ∧
      (∀ t : TabCompleter, t.completer.toTokenCompleter.WellFormed →
        (∀ inText tokens rest ctx,
          (autoCompleteLoop env inText tokens t.completer.toTokenCompleter rest ctx).isSome =
            true) ∧
        (∀ tokens ctx, (parseLoop env t.completer.toTokenCompleter tokens ctx).isSome = true) ∧
        (∀ text (cursor : Nat) ctx, cursor ≤ text.length →
          (t.AutoComplete env text (cursor : Int) ctx).isSome = true) ∧
        (∀ text ctx, (t.Parse env text ctx).isSome = true)) := by
  refine ⟨fun c token ctx r h hok => match_next_isSome env c token ctx r h hok, ?_⟩
  intro t hwf
  have hloop : ∀ inText tokens rest ctx,
      (autoCompleteLoop env inText tokens t.completer.toTokenCompleter rest ctx).isSome =
        true := fun inText tokens rest ctx => autoCompleteLoop_total env inText tokens rest _ ctx hwf
  have hparse : ∀ tokens ctx,
      (parseLoop env t.completer.toTokenCompleter tokens ctx).isSome = true := by
    intro tokens ctx
    obtain ⟨ctx1, h⟩ := parseLoop_total env tokens _ ctx hwf
    rw [h]; rfl
  refine ⟨hloop, hparse, ?_, ?_⟩
  · intro text cursor ctx hc
    unfold TabCompleter.AutoComplete
    rw [sliceTo_nat, if_pos hc]
    simp only
    split
    · rfl
    · split
      · rfl
      · obtain ⟨res, hres⟩ := Option.isSome_iff_exists.mp (hloop (text.take cursor)
          (if HasSuffix (text.take cursor) [' '] then (env.Split (text.take cursor)).1 ++ [[]]
            else (env.Split (text.take cursor)).1)
          (if HasSuffix (text.take cursor) [' '] then (env.Split (text.take cursor)).1 ++ [[]]
            else (env.Split (text.take cursor)).1) ctx)
        rw [hres]
        rfl
  · intro text ctx
    unfold TabCompleter.Parse
    simp only
    split
    · rfl
    · obtain ⟨ctx1, h⟩ := Option.isSome_iff_exists.mp (hparse (env.Split text).1 ctx)
      rw [h]
      rfl

/-- C19 for the chain `move` over `x`, `y`, `z` at the text `"move x y"`. -/
theorem match_pointer_nonnil_witness :
    ((moveChain 1 "axis".toList none none none).AutoComplete stdEnv "move x y".toList 8
        []).isSome = true ∧
      ((moveChain 1 "axis".toList none none none).Parse stdEnv "move x y".toList []).isSome =
        true :=
  have h := (match_pointer_nonnil stdEnv).2 (moveChain 1 "axis".toList none none none)
    moveChain_wellFormed
  ⟨h.2.2.1 "move x y".toList 8 [] (by decide), h.2.2.2 "move x y".toList []⟩

/-! ## Determinism of `AutoComplete` (C11) -/

theorem complete_same (env : Env) (c1 c2 : TokenCompleter) (h : SameGrammar c1 c2) (token : Str)
    (ctx1 ctx2 : CommandContext) : c1.Complete env token ctx1 = c2.Complete env token ctx2 := by
  cases h with
  | command key reg1 reg2 cm1 cm2 h1 h2 hl _ _ _ _ =>
    exact complete_congr { ContextKey := key, Registry := reg1, caseMap := cm1 }
      { ContextKey := key, Registry := reg2, caseMap := cm2 } token ctx1 ctx2 h1 h2 hl
  | static key reg1 reg2 hd hm _ _ =>
    exact complete_congr { ContextKey := [], Registry := [], caseMap := caseIndex (mapKeys reg1) }
      { ContextKey := [], Registry := [], caseMap := caseIndex (mapKeys reg2) } token ctx1 ctx2
      (nodup_caseIndex_keys _) (nodup_caseIndex_keys _) (caseIndex_congr _ _ hm hd)

theorem command_match_miss (c : CommandTokenCompleter) (token : Str) (ctx : CommandContext)
    (h : mapGet c.caseMap (ToLower token) = none) :
    c.Match token ctx = some { ok := false, token := [], next := none, ctx := ctx } := by
  simp only [CommandTokenCompleter.Match, h]

theorem command_match_panic (c : CommandTokenCompleter) (token : Str) (ctx : CommandContext)
    (name : Str) (h : mapGet c.caseMap (ToLower token) = some name)
    (h2 : mapGet c.Registry name = none) : c.Match token ctx = none := by
  simp only [CommandTokenCompleter.Match, h, h2]

theorem command_match_hit (c : CommandTokenCompleter) (token : Str) (ctx : CommandContext)
    (name : Str) (cmd : Command) (h : mapGet c.caseMap (ToLower token) = some name)
    (h2 : mapGet c.Registry name = some cmd) :
    c.Match token ctx =
      some { ok := true, token := token,
             next := some (cmd.GetCompleter (mapSet ctx c.ContextKey (.command cmd.id))),
             ctx := mapSet ctx c.ContextKey (.command cmd.id) } := by
  simp only [CommandTokenCompleter.Match, h, h2]

theorem static_match_miss (key : Str) (reg : List (Str × Option TokenCompleter)) (token : Str)
    (ctx : CommandContext) (h : mapGet (caseIndex (mapKeys reg)) (ToLower token) = none) :
    StaticTokenCompleter.Match key reg token ctx =
      { ok := false, token := [], next := none, ctx := ctx } := by
  simp only [StaticTokenCompleter.Match, buildCaseMap_eq, h]

theorem static_match_hit (key : Str) (reg : List (Str × Option TokenCompleter)) (token : Str)
    (ctx : CommandContext) (name : Str)
    (h : mapGet (caseIndex (mapKeys reg)) (ToLower token) = some name) :
    StaticTokenCompleter.Match key reg token ctx =
      { ok := true, token := name, next := some ((mapGet reg name).getD none),
        ctx := mapSet ctx key (.str name) } := by
  simp only [StaticTokenCompleter.Match, buildCaseMap_eq, h]

/-- `Match` on related matchers: both panic, or both return, with the same
verdict and context and with related next matchers. -/
theorem match_same (env : Env) (c1 c2 : TokenCompleter) (h : SameGrammar c1 c2) (token : Str)
    (ctx : CommandContext) :
    (c1.Match env token ctx = none ∧ c2.Match env token ctx = none) ∨
      ∃ r1 r2, c1.Match env token ctx = some r1 ∧ c2.Match env token ctx = some r2 ∧
        r1.ok = r2.ok ∧ r1.ctx = r2.ctx ∧
        (r1.ok = false ∨ (r1.next = some none ∧ r2.next = some none) ∨
          ∃ m1 m2, r1.next = some (some m1) ∧ r2.next = some (some m2) ∧ SameGrammar m1 m2) := by
  cases h with
  | command key reg1 reg2 cm1 cm2 _ _ hl hs hid hgs hg =>
    show (CommandTokenCompleter.Match ⟨key, reg1, cm1⟩ token ctx = none ∧
        CommandTokenCompleter.Match ⟨key, reg2, cm2⟩ token ctx = none) ∨
      ∃ r1 r2, CommandTokenCompleter.Match ⟨key, reg1, cm1⟩ token ctx = some r1 ∧
        CommandTokenCompleter.Match ⟨key, reg2, cm2⟩ token ctx = some r2 ∧ _
    cases hk : mapGet cm1 (ToLower token) with
    | none =>
      have hk2 : mapGet cm2 (ToLower token) = none := by rw [← hl]; exact hk
      rw [command_match_miss ⟨key, reg1, cm1⟩ token ctx hk,
        command_match_miss ⟨key, reg2, cm2⟩ token ctx hk2]
      exact Or.inr ⟨_, _, rfl, rfl, rfl, rfl, Or.inl rfl⟩
    | some name =>
      have hk2 : mapGet cm2 (ToLower token) = some name := by rw [← hl]; exact hk
      have hsn := hs name
      cases hc1 : mapGet reg1 name with
      | none =>
        rw [hc1] at hsn
        cases hc2 : mapGet reg2 name with
        | none =>
          rw [command_match_panic ⟨key, reg1, cm1⟩ token ctx name hk hc1,
            command_match_panic ⟨key, reg2, cm2⟩ token ctx name hk2 hc2]
          exact Or.inl ⟨rfl, rfl⟩
        | some c2 => rw [hc2] at hsn; cases hsn
      | some c1 =>
        rw [hc1] at hsn
        cases hc2 : mapGet reg2 name with
        | none => rw [hc2] at hsn; cases hsn
        | some c2 =>
          have hi := hid name c1 c2 hc1 hc2
          rw [command_match_hit ⟨key, reg1, cm1⟩ token ctx name c1 hk hc1,
            command_match_hit ⟨key, reg2, cm2⟩ token ctx name c2 hk2 hc2]
          refine Or.inr ⟨_, _, rfl, rfl, rfl, by simp only [hi], ?_⟩
          right
          simp only [hi]
          have hgs1 := hgs name c1 c2 (mapSet ctx key (.command c2.id)) hc1 hc2
          cases hm1 : c1.GetCompleter (mapSet ctx key (.command c2.id)) with
          | none =>
            rw [hm1] at hgs1
            cases hm2 : c2.GetCompleter (mapSet ctx key (.command c2.id)) with
            | none => exact Or.inl ⟨rfl, rfl⟩
            | some m2 => rw [hm2] at hgs1; cases hgs1
          | some m1 =>
            rw [hm1] at hgs1
            cases hm2 : c2.GetCompleter (mapSet ctx key (.command c2.id)) with
            | none => rw [hm2] at hgs1; cases hgs1
            | some m2 =>
              exact Or.inr ⟨m1, m2, rfl, rfl, hg name c1 c2 _ m1 m2 hc1 hc2 hm1 hm2⟩
  | static key reg1 reg2 hd hm hs hg =>
    show (some (StaticTokenCompleter.Match key reg1 token ctx) = none ∧
        some (StaticTokenCompleter.Match key reg2 token ctx) = none) ∨
      ∃ r1 r2, some (StaticTokenCompleter.Match key reg1 token ctx) = some r1 ∧
        some (StaticTokenCompleter.Match key reg2 token ctx) = some r2 ∧ _
    cases hk : mapGet (caseIndex (mapKeys reg1)) (ToLower token) with
    | none =>
      have hk2 : mapGet (caseIndex (mapKeys reg2)) (ToLower token) = none := by
        rw [← caseIndex_congr _ _ hm hd]; exact hk
      rw [static_match_miss key reg1 token ctx hk, static_match_miss key reg2 token ctx hk2]
      exact Or.inr ⟨_, _, rfl, rfl, rfl, rfl, Or.inl rfl⟩
    | some name =>
      have hk2 : mapGet (caseIndex (mapKeys reg2)) (ToLower token) = some name := by
        rw [← caseIndex_congr _ _ hm hd]; exact hk
      rw [static_match_hit key reg1 token ctx name hk, static_match_hit key reg2 token ctx name hk2]
      refine Or.inr ⟨_, _, rfl, rfl, rfl, rfl, ?_⟩
      right
      simp only
      have hsn := hs name
      cases hv1 : (mapGet reg1 name).getD none with
      | none =>
        rw [hv1] at hsn
        cases hv2 : (mapGet reg2 name).getD none with
        | none => exact Or.inl ⟨rfl, rfl⟩
        | some m2 => rw [hv2] at hsn; cases hsn
      | some m1 =>
        rw [hv1] at hsn
        cases hv2 : (mapGet reg2 name).getD none with
        | none => rw [hv2] at hsn; cases hsn
        | some m2 =>
          refine Or.inr ⟨m1, m2, rfl, rfl, hg name m1 m2 ?_ ?_⟩
          · cases hx : mapGet reg1 name with
            | none => rw [hx] at hv1; cases hv1
            | some o => rw [hx] at hv1; exact congrArg some hv1
          · cases hx : mapGet reg2 name with
            | none => rw [hx] at hv2; cases hv2
            | some o => rw [hx] at hv2; exact congrArg some hv2

theorem autoCompleteLoop_same (env : Env) (inText : Str) (tokens : List Str) (rest : List Str) :
    ∀ (c1 c2 : TokenCompleter) (ctx : CommandContext), SameGrammar c1 c2 →
      autoCompleteLoop env inText tokens c1 rest ctx =
        autoCompleteLoop env inText tokens c2 rest ctx := by
  induction rest with
  | nil => intro c1 c2 ctx _; rfl
  | cons token rest ih =>
    intro c1 c2 ctx h
    unfold autoCompleteLoop
    by_cases hr : rest = []
    · rw [if_pos hr, if_pos hr, complete_same env c1 c2 h token ctx ctx]
    · rw [if_neg hr, if_neg hr]
      rcases match_same env c1 c2 h token ctx with ⟨h1, h2⟩ | ⟨r1, r2, h1, h2, hok, hctx, hn⟩
      · rw [h1, h2]
      · rw [h1, h2]
        simp only
        rcases hn with hf | ⟨hn1, hn2⟩ | ⟨m1, m2, hn1, hn2, hs⟩
        · rw [if_pos hf, if_pos (hok ▸ hf), hctx]
        · by_cases hf : r1.ok = false
          · rw [if_pos hf, if_pos (hok ▸ hf), hctx]
          · rw [if_neg hf, if_neg (hok ▸ hf), hn1, hn2, hctx]
        · by_cases hf : r1.ok = false
          · rw [if_pos hf, if_pos (hok ▸ hf), hctx]
          · rw [if_neg hf, if_neg (hok ▸ hf), hn1, hn2, hctx]
            exact ih m1 m2 r2.ctx hs

/-- C11, as stated, fails for a static mapping with two keys that are equal
ignoring case: the mapping with the keys `X` and `x` gives the candidate `x`
when enumerated in this order and `X` when enumerated in the other. -/
theorem autoComplete_deterministic_counterexample :
    mapKeys clashMapping.reverse = ["x".toList, "X".toList] ∧
      (mapKeys clashMapping).Perm (mapKeys clashMapping.reverse) ∧
      ((staticChain clashMapping staleState).AutoComplete stdEnv "move ".toList 5 []).map
        (fun r => r.entries) = some ["x".toList] ∧
      ((staticChain clashMapping.reverse staleState).AutoComplete stdEnv "move ".toList 5 []).map
        (fun r => r.entries) = some ["X".toList] := by
  refine ⟨rfl, by decide, rfl, rfl⟩

/-- C11, amended: for grammars built from the command registry and static
dispatch matchers whose static mappings have keys pairwise distinct ignoring
case, the candidates, the insertion offset and the context returned by
`AutoComplete` are determined by the text, the cursor, the registered names
and mappings and the initial context: two completers that hold the same
names, mappings and commands return the same results, whatever completion
state earlier calls left and in whatever order the maps are enumerated. -/
theorem autoComplete_deterministic (env : Env) (t1 t2 : TabCompleter)
    (h : SameGrammar t1.completer.toTokenCompleter t2.completer.toTokenCompleter) (text : Str)
    (cursor : Int) (ctx : CommandContext) :
    (t1.AutoComplete env text cursor ctx).map (fun r => (r.entries, r.menuOffset, r.ctx)) =
      (t2.AutoComplete env text cursor ctx).map (fun r => (r.entries, r.menuOffset, r.ctx)) := by
  unfold TabCompleter.AutoComplete
  cases hs : sliceTo text cursor with
  | none => rfl
  | some inText =>
    simp only
    by_cases he : (env.Split inText).2 ≠ none
    · rw [if_pos he, if_pos he]; rfl
    · rw [if_neg he, if_neg he]
      by_cases h0 : (env.Split inText).1.length = 0
      · rw [if_pos h0, if_pos h0]; rfl
      · rw [if_neg h0, if_neg h0]
        rw [autoCompleteLoop_same env inText _ _ _ _ ctx h]
        cases autoCompleteLoop env inText
          (if HasSuffix inText [' '] then (env.Split inText).1 ++ [[]] else (env.Split inText).1)
          t2.completer.toTokenCompleter
          (if HasSuffix inText [' '] then (env.Split inText).1 ++ [[]] else (env.Split inText).1)
          ctx with
        | none => rfl
        | some res => rfl

/-- The chain `move` over `x`, `y`, `z` and the same chain with the mapping
enumerated in another order hold the same grammar. -/
theorem axis_sameGrammar (s1 s2 : CompletionState) :
    SameGrammar (staticChain (axisRegistry none none none) s1).completer.toTokenCompleter
      (staticChain axisReordered s2).completer.toTokenCompleter := by
  have hnd : (["move".toList] : List Str).Nodup := by decide
  refine SameGrammar.command _ _ _ _ _ hnd hnd (fun _ => rfl) ?_ ?_ ?_ ?_
  · intro n
    simp only [staticChain, TabCompleter.RegisterCommand, NewTabCompleter, mapSet, mapGet]
    split <;> rfl
  · intro n c1 c2 h1 h2
    simp only [staticChain, TabCompleter.RegisterCommand, NewTabCompleter, mapSet, mapGet] at h1 h2
    split at h1
    · cases h1
      rw [if_pos (by assumption)] at h2
      cases h2
      rfl
    · cases h1
  · intro n c1 c2 ctx h1 h2
    simp only [staticChain, TabCompleter.RegisterCommand, NewTabCompleter, mapSet, mapGet] at h1 h2
    split at h1
    · cases h1
      rw [if_pos (by assumption)] at h2
      cases h2
      rfl
    · cases h1
  · intro n c1 c2 ctx m1 m2 h1 h2 hg1 hg2
    simp only [staticChain, TabCompleter.RegisterCommand, NewTabCompleter, mapSet, mapGet] at h1 h2
    split at h1
    · cases h1
      rw [if_pos (by assumption)] at h2
      cases h2
      cases hg1
      cases hg2
      refine SameGrammar.static _ _ _ (by decide) ?_ ?_ ?_
      · intro k
        show k ∈ ["x".toList, "y".toList, "z".toList] ↔ k ∈ ["z".toList, "x".toList, "y".toList]
        simp only [List.mem_cons, List.mem_singleton, List.not_mem_nil, or_false]
        tauto
      · intro k
        simp only [axisRegistry, axisReordered, mapGet]
        repeat' split
        all_goals rfl
      · intro k m1 m2 hk _
        simp only [axisRegistry, mapGet] at hk
        repeat' split at hk
        all_goals cases hk
    · cases h1

/-- C11 for the chain `move` over `x`, `y`, `z`: enumerating the mapping in
the order `z`, `x`, `y` after an earlier request changes nothing. -/
theorem autoComplete_deterministic_witness :
    ((staticChain (axisRegistry none none none) NewTabCompleter.completionState).AutoComplete
        stdEnv "move ".toList 5 []).map (fun r => (r.entries, r.menuOffset, r.ctx)) =
      ((staticChain axisReordered staleState).AutoComplete stdEnv "move ".toList 5 []).map
        (fun r => (r.entries, r.menuOffset, r.ctx)) :=
  autoComplete_deterministic stdEnv _ _ (axis_sameGrammar _ _) "move ".toList 5 []

/-! ## The last registration -/

/-- The index holds, for each lower-cased form, the name entered last with
that form. -/
theorem caseIndex_get_last (l : List Str) (k : Str) :
    mapGet (caseIndex l) k = l.reverse.find? (fun n => decide (ToLower n = k)) := by
  induction l using List.reverseRecOn with
  | nil => rfl
  | append_singleton l a ih =>
    rw [caseIndex_snoc, List.reverse_append, List.reverse_singleton, List.singleton_append,
      List.find?_cons]
    by_cases he : ToLower a = k
    · subst he
      rw [mapGet_mapSet_same]
      simp
    · rw [mapGet_mapSet_ne _ _ _ _ he, ih]
      simp [he]

/-- The registry holds, for each name, the command registered last under
it. -/
theorem registry_get_last (regs : List (Str × Command)) (n : Str) :
    mapGet (registerAll regs).completer.Registry n =
      (regs.reverse.find? (fun r => decide (r.1 = n))).map Prod.snd := by
  induction regs using List.reverseRecOn with
  | nil => rfl
  | append_singleton regs r ih =>
    rw [registerAll_snoc, List.reverse_append, List.reverse_singleton, List.singleton_append,
      List.find?_cons]
    show mapGet (mapSet _ _ _) _ = _
    by_cases he : r.1 = n
    · subst he
      rw [mapGet_mapSet_same]
      simp
    · rw [mapGet_mapSet_ne _ _ _ _ he, ih]
      simp [he]

/-- `StaticTokenCompleter.Complete` does not depend on the order in which a
mapping with keys pairwise distinct ignoring case is enumerated, nor on the
matchers it maps to. -/
theorem static_complete_congr (reg1 reg2 : List (Str × Option TokenCompleter)) (token : Str)
    (ctx1 ctx2 : CommandContext) (hm : ∀ n, n ∈ mapKeys reg1 ↔ n ∈ mapKeys reg2)
    (hd : DistinctIgnoringCase (mapKeys reg1)) :
    StaticTokenCompleter.Complete reg1 token ctx1 =
      StaticTokenCompleter.Complete reg2 token ctx2 :=
  complete_congr { ContextKey := [], Registry := [], caseMap := caseIndex (mapKeys reg1) }
    { ContextKey := [], Registry := [], caseMap := caseIndex (mapKeys reg2) } token ctx1 ctx2
    (nodup_caseIndex_keys _) (nodup_caseIndex_keys _) (caseIndex_congr _ _ hm hd)

/-! ## Chained dispatch (C2) -/

/-- C2: with the single registered command `move` whose completer is a
static dispatch matcher over a mapping with the keys `x`, `y`, `z`, in
whatever order the map is enumerated and whatever it maps them to,
`AutoComplete` on `"move "` with the cursor at its end returns exactly `x`,
`y`, `z` in that order, and on `"move x"` exactly `x`, the static matcher's
`Complete` reporting an exact match for the token `x`. -/
theorem autoComplete_move_chain (id : Nat) (key : Str)
    (reg : List (Str × Option TokenCompleter)) (ctx ctx1 : CommandContext)
    (hkeys : (mapKeys reg).Perm ["x".toList, "y".toList, "z".toList]) :
    ((moveChainOver id key reg).AutoComplete stdEnv "move ".toList 5 ctx).map
        (fun r => r.entries) = some ["x".toList, "y".toList, "z".toList] ∧
      ((moveChainOver id key reg).AutoComplete stdEnv "move x".toList 6 ctx).map
        (fun r => r.entries) = some ["x".toList] ∧
      StaticTokenCompleter.Complete reg "x".toList ctx1 = (["x".toList], true) := by
  have hm : ∀ n, n ∈ mapKeys reg ↔ n ∈ mapKeys (axisRegistry none none none) :=
    fun n => hkeys.mem_iff
  have hd : DistinctIgnoringCase (mapKeys reg) := by
    intro a ha b hb he
    have hd0 : DistinctIgnoringCase ["x".toList, "y".toList, "z".toList] := by decide
    exact hd0 a (hkeys.mem_iff.mp ha) b (hkeys.mem_iff.mp hb) he
  have hc : ∀ token c1, StaticTokenCompleter.Complete reg token c1 =
      StaticTokenCompleter.Complete (axisRegistry none none none) token [] :=
    fun token c1 => static_complete_congr reg _ token c1 [] hm hd
  have h1 : ((moveChainOver id key reg).AutoComplete stdEnv "move ".toList 5 ctx).map
      (fun r => r.entries) =
      some (StaticTokenCompleter.Complete reg [] (mapSet ctx "cmd".toList (.command id))).1 := rfl
  have h2 : ((moveChainOver id key reg).AutoComplete stdEnv "move x".toList 6 ctx).map
      (fun r => r.entries) =
      some (StaticTokenCompleter.Complete reg "x".toList
        (mapSet ctx "cmd".toList (.command id))).1 := rfl
  rw [h1, h2, hc, hc, hc]
  exact ⟨rfl, rfl, rfl⟩

/-- C2 for the mapping enumerated in the order `z`, `x`, `y`. -/
theorem autoComplete_move_chain_witness :
    ((moveChainOver 1 "axis".toList axisReordered).AutoComplete stdEnv "move ".toList 5 []).map
        (fun r => r.entries) = some ["x".toList, "y".toList, "z".toList] ∧
      ((moveChainOver 1 "axis".toList axisReordered).AutoComplete stdEnv "move x".toList 6
        []).map (fun r => r.entries) = some ["x".toList] ∧
      StaticTokenCompleter.Complete axisReordered "x".toList [] = (["x".toList], true) :=
  autoComplete_move_chain 1 "axis".toList axisReordered [] [] (by decide)

/-! ## Exact match (C3) -/

/-- C3, as stated, fails when two registered names differ only in case:
after registering `Move` and then `move`, the token `Move` equals the
registered name `Move`, but the candidates are `move` alone. -/
theorem complete_exact_match_counterexample :
    "Move".toList ∈ registeredNames caseClashRegs ∧
      ((registerAll caseClashRegs).completer.Complete "Move".toList []) =
        (["move".toList], true) ∧
      "Move".toList ∉ ((registerAll caseClashRegs).completer.Complete "Move".toList []).1 := by
  decide

/-- C3, amended: for a token equal to a registered name ignoring case,
`CommandTokenCompleter.Complete` returns `exactMatch = true`, and its
candidates contain the name registered last among the registered names
equal to the token ignoring case, which is the only candidate equal to the
token ignoring case; this is the given name in its registration-time casing
when the registered names are pairwise distinct ignoring case. -/
theorem complete_exact_match (regs : List (Str × Command)) (token : Str) (ctx : CommandContext)
    (name : Str) (hn : name ∈ registeredNames regs) (he : ToLower token = ToLower name) :
    ((registerAll regs).completer.Complete token ctx).2 = true ∧
      (∃ canon,
        (registeredNames regs).reverse.find? (fun n => decide (ToLower n = ToLower token)) =
          some canon ∧
        canon ∈ ((registerAll regs).completer.Complete token ctx).1 ∧
        ∀ c ∈ ((registerAll regs).completer.Complete token ctx).1,
          ToLower c = ToLower token → c = canon) ∧
      (DistinctIgnoringCase (registeredNames regs) →
        name ∈ ((registerAll regs).completer.Complete token ctx).1) := by
  have hkey : ToLower token ∈ mapKeys (registerAll regs).completer.caseMap := by
    rw [mem_caseMap_keys, he]
    exact List.mem_map_of_mem ToLower hn
  refine ⟨?_, ?_, ?_⟩
  · rw [CommandTokenCompleter.Complete_eq]
    exact decide_eq_true hkey
  · obtain ⟨canon, hc⟩ := Option.isSome_iff_exists.mp ((mapGet_isSome_iff _ _).mpr hkey)
    refine ⟨canon, ?_, ?_, ?_⟩
    · rw [← caseIndex_get_last, ← registerAll_caseMap]
      exact hc
    · exact (mem_complete regs token ctx canon).mpr ⟨ToLower token, HasPrefix_self _, hc⟩
    · intro c hcand hl
      obtain ⟨k, _, hv⟩ := (mem_complete regs token ctx c).mp hcand
      have hk := (caseMap_get regs k c hv).1
      rw [hk, hl, hc] at hv
      exact (Option.some.inj hv).symm
  · intro hd
    refine (mem_complete regs token ctx name).mpr ⟨ToLower name, ?_, ?_⟩
    · rw [he]; exact HasPrefix_self _
    · rw [registerAll_caseMap]
      exact caseIndex_get_of_distinct _ hd name hn

/-- C3 at the registrations `Move`, `move` and the token `MOVE`: the
candidate is `move`, the name registered last. -/
theorem complete_exact_match_witness :
    ((registerAll caseClashRegs).completer.Complete "MOVE".toList []).2 = true ∧
      "move".toList ∈ ((registerAll caseClashRegs).completer.Complete "MOVE".toList []).1 :=
  have h := complete_exact_match caseClashRegs "MOVE".toList [] "Move".toList (by decide)
    (by decide)
  ⟨h.1, h.2.1.elim fun canon hc => by
    have h2 : (registeredNames caseClashRegs).reverse.find?
        (fun n => decide (ToLower n = ToLower "MOVE".toList)) = some "move".toList := by
      decide
    rw [h2] at hc
    rw [Option.some.inj hc.1]
    exact hc.2.1⟩

/-! ## Uniqueness of the registered names (C12) -/

/-- C12, as stated, fails: after registering `Move` and then `move`, both are
keys of `Registry`, and they are equal after lower-casing. -/
theorem registry_keys_unique_counterexample :
    mapKeys (registerAll caseClashRegs).completer.Registry = ["Move".toList, "move".toList] ∧
      ToLower "Move".toList = ToLower "move".toList ∧
      ¬ ((mapKeys (registerAll caseClashRegs).completer.Registry).map ToLower).Nodup := by
  decide

/-- C12, amended: after any sequence of `RegisterCommand` calls the keys of
`Registry` are exactly the registered names, each once, each mapped to the
command registered last under it; the keys of the case-insensitive index
are exactly the lower-cased forms of the registered names, each once, each
mapped to the name registered last with that form; and no two keys of
`Registry` are equal after lower-casing if and only if the names passed to
`RegisterCommand` are pairwise distinct ignoring case. -/
theorem registry_keys_unique (regs : List (Str × Command)) :
    (mapKeys (registerAll regs).completer.Registry).Nodup ∧
      (∀ n, n ∈ mapKeys (registerAll regs).completer.Registry ↔ n ∈ registeredNames regs) ∧
      (∀ n, mapGet (registerAll regs).completer.Registry n =
        (regs.reverse.find? (fun r => decide (r.1 = n))).map Prod.snd) ∧
      (mapKeys (registerAll regs).completer.caseMap).Nodup ∧
      (∀ k, k ∈ mapKeys (registerAll regs).completer.caseMap ↔
        k ∈ (registeredNames regs).map ToLower) ∧
      (∀ k, mapGet (registerAll regs).completer.caseMap k =
        (registeredNames regs).reverse.find? (fun n => decide (ToLower n = k))) ∧
      (((mapKeys (registerAll regs).completer.Registry).map ToLower).Nodup ↔
        DistinctIgnoringCase (registeredNames regs)) := by
  refine ⟨nodup_registry_keys regs, mem_registry_keys regs, registry_get_last regs,
    nodup_caseMap_keys regs, mem_caseMap_keys regs, ?_, ?_, ?_⟩
  · intro k
    rw [registerAll_caseMap]
    exact caseIndex_get_last _ k
  · intro hnd a ha b hb he
    exact List.inj_on_of_nodup_map hnd ((mem_registry_keys regs a).mpr ha)
      ((mem_registry_keys regs b).mpr hb) he
  · intro hd
    refine List.Nodup.map_on ?_ (nodup_registry_keys regs)
    intro a ha b hb he
    exact hd a ((mem_registry_keys regs a).mp ha) b ((mem_registry_keys regs b).mp hb) he

/-- C12 at the registrations `Move`, `home`, `MOTD`: the index has the keys
`move`, `home`, `motd`, and the keys of `Registry` are unique modulo case. -/
theorem registry_keys_unique_witness :
    DistinctIgnoringCase (registeredNames sampleRegs) ∧
      mapKeys (registerAll sampleRegs).completer.caseMap =
        ["move".toList, "home".toList, "motd".toList] ∧
      "motd".toList ∈ mapKeys (registerAll sampleRegs).completer.caseMap ∧
      mapGet (registerAll sampleRegs).completer.caseMap "motd".toList = some "MOTD".toList ∧
      ((mapKeys (registerAll sampleRegs).completer.Registry).map ToLower).Nodup :=
  have h := registry_keys_unique sampleRegs
  ⟨by decide, by decide, (h.2.2.2.2.1 "motd".toList).mpr (by decide),
    (h.2.2.2.2.2.1 "motd".toList).trans (by decide), h.2.2.2.2.2.2.mpr (by decide)⟩

/-! ## The insertion offset of a suffix token (C18) -/

theorem autoCompleteLoop_no_walk (env : Env) (inText : Str) (tokens : List Str) :
    ∀ (rest : List Str) (c : TokenCompleter) (ctx : CommandContext) (e : List Str) (o : Int)
      (ctx1 : CommandContext), walkToLast env c rest ctx = none →
      autoCompleteLoop env inText tokens c rest ctx = some (e, o, ctx1) → e = [] ∧ o = 0 := by
  intro rest
  induction rest with
  | nil =>
    intro c ctx e o ctx1 _ h
    simp only [autoCompleteLoop] at h
    cases h
    exact ⟨rfl, rfl⟩
  | cons token rest ih =>
    intro c ctx e o ctx1 hw h
    unfold walkToLast at hw
    unfold autoCompleteLoop at h
    by_cases hr : rest = []
    · rw [if_pos hr] at hw; cases hw
    · rw [if_neg hr] at hw h
      cases hm : c.Match env token ctx with
      | none => rw [hm] at h; cases h
      | some r =>
        rw [hm] at hw h
        simp only at hw h
        by_cases hok : r.ok = false
        · rw [if_pos hok] at h
          cases h
          exact ⟨rfl, rfl⟩
        · rw [if_neg hok] at hw h
          cases hn : r.next with
          | none => rw [hn] at h; cases h
          | some o2 =>
            cases o2 with
            | none =>
              rw [hn] at h
              cases h
              exact ⟨rfl, rfl⟩
            | some next =>
              rw [hn] at hw h
              exact ih next r.ctx e o ctx1 hw h

/-- C18, as stated, fails in two ways.  When the walk ends before the last
token the offset is 0: on `"bogus x"` the last token `x` is a suffix of the
text, but `bogus` is rejected and `AutoComplete` returns the offset 0, not
`7 - 1`.  And a suffix that spells the token need not be the token: on
`"x # x"` the only token `x` stands at offset 0 (the text after it is a
comment), the offset is `5 - 1`, and applying `y` gives `"x # y"`, whose only
token is still `x`. -/
theorem offset_of_suffix_counterexample :
    ((moveChain 1 "axis".toList none none none).AutoComplete stdEnv "bogus x".toList 7 []).map
        (fun r => (r.menuOffset, r.t.completionState.tokens)) =
        some (0, ["bogus".toList, "x".toList]) ∧
      HasSuffix ("bogus x".toList.take 7) "x".toList = true ∧
      (0 : Int) ≠ 7 - ("x".toList.length : Int) ∧
      ((registerAll axisRegs).AutoComplete stdEnv "x # x".toList 5 []).map
        (fun r => (r.entries, r.menuOffset, r.t.completionState.tokens)) =
        some (["x".toList], 4, ["x".toList]) ∧
      HasSuffix ("x # x".toList.take 5) "x".toList = true ∧
      shlexSplit ("x # x".toList.take 1) = (["x".toList], none) ∧
      shlexSplit ("x # x".toList.drop 1) = ([], none) ∧
      ((registerAll axisRegs).AutoComplete stdEnv "x # x".toList 5 []).bind
        (fun r => r.t.OnAutoCompleted stdEnv "y".toList 0 1) =
        some (true, "x # y".toList, 5) ∧
      shlexSplit ("x # y".toList.take 5) = (["x".toList], none) := by
  refine ⟨rfl, by decide, by decide, rfl, by decide, by decide, by decide, rfl, by decide⟩

/-- C18, amended: when the last recorded token is literally a suffix of
`text[:cursor]`, the insertion offset returned by `AutoComplete` is
`cursor - len(last token)`, with the candidates of `Complete` on that token,
when the walk reaches the last token, and 0, with no candidates, otherwise;
so `0 <= offset <= cursor`.  `OnAutoCompleted` replaces exactly the last
`len(last token)` characters of `text[:cursor]`, which spell the token: it
returns `text[:cursor - len(token)] + selection + text[cursor:]`.  Those
characters are the last token itself (the text up to the cursor tokenizes to
the words before it followed by that token) when the tokenizer is
`shlex.Split`, the token is non-empty and made of ordinary characters, and
the tokenizer is between tokens at offset `cursor - len(token)`. -/
theorem offset_of_suffix (env : Env) (t : TabCompleter) (text : Str) (cursor : Nat)
    (ctx : CommandContext) (r : AutoCompleteResult)
    (hrun : t.AutoComplete env text (cursor : Int) ctx = some r)
    (herr : (env.Split (text.take cursor)).2 = none)
    (hne : (env.Split (text.take cursor)).1 ≠ [])
    (last : Str) (hlast : r.t.completionState.tokens.getLast? = some last)
    (hsuf : HasSuffix (text.take cursor) last = true) :
    (∀ c1 ctx1, walkToLast env t.completer.toTokenCompleter r.t.completionState.tokens ctx =
          some (c1, ctx1) →
        r.menuOffset = (cursor : Int) - (last.length : Int) ∧
        r.entries = (c1.Complete env last ctx1).1) ∧
      (walkToLast env t.completer.toTokenCompleter r.t.completionState.tokens ctx = none →
        r.menuOffset = 0 ∧ r.entries = []) ∧
      0 ≤ r.menuOffset ∧ r.menuOffset ≤ (cursor : Int) ∧
      text.take (cursor - last.length) ++ last = text.take cursor ∧
      (∀ sel index source, source ≠ env.AutocompletedNavigate →
        r.t.OnAutoCompleted env sel index source =
          some (true, text.take (cursor - last.length) ++ sel ++ text.drop cursor,
            ((cursor - last.length : Nat) : Int) + (sel.length : Int))) ∧
      (env.Split = shlexSplit → last ≠ [] → (∀ c ∈ last, classifyRune c = .unknown) →
        ((text.take (cursor - last.length)).foldl lexStep lexInit).state = .start →
        env.Split (text.take cursor) =
            (((text.take (cursor - last.length)).foldl lexStep lexInit).words ++ [last], none) ∧
          r.t.completionState.tokens =
            ((text.take (cursor - last.length)).foldl lexStep lexInit).words ++ [last]) := by
  obtain ⟨hc, _, hrec⟩ := autoComplete_inv env t text cursor ctx r hrun
  obtain ⟨_, hraw, hcur, htok, hloop⟩ := hrec herr hne
  have hlen : (text.take cursor).length = cursor := by
    rw [List.length_take]; exact Nat.min_eq_left hc
  have hk := isLast_of_suffix _ _ hsuf
  rw [hlen] at hk
  have hle : last.length ≤ cursor := by
    have := ((HasSuffix_iff _ _).mp hsuf).length_le
    rw [hlen] at this
    exact this
  have hidx : LastIndex (text.take cursor)
      (r.t.completionState.tokens.getD (r.t.completionState.tokens.length - 1) []) =
      (cursor : Int) - (last.length : Int) := by
    rw [getD_last _ _ hlast, LastIndex_eq_of_isLast _ _ _ hk]
    omega
  have hcases := autoCompleteLoop_offset env _ _ _ _ _ _ _ _ hloop
  rw [hidx] at hcases
  have hsplit : text.take (cursor - last.length) ++ last = text.take cursor := by
    obtain ⟨p, hp⟩ := (HasSuffix_iff _ _).mp hsuf
    have hpl : p.length = cursor - last.length := by
      have := congrArg List.length hp
      rw [List.length_append, hlen] at this
      omega
    have : text.take (cursor - last.length) = p := by
      have h1 : (text.take cursor).take (cursor - last.length) = p := by
        rw [← hp, ← hpl, List.take_left]
      rw [List.take_take, Nat.min_eq_left (Nat.sub_le _ _)] at h1
      exact h1
    rw [this, hp]
  refine ⟨?_, ?_, ?_, ?_, hsplit, ?_, ?_⟩
  · intro c1 ctx1 hw
    have h2 := autoCompleteLoop_of_walk env (text.take cursor) r.t.completionState.tokens
      r.t.completionState.tokens _ ctx c1 ctx1 hw
    rw [hloop, hlast] at h2
    have h3 := Prod.mk.inj (Option.some.inj h2)
    have h4 := (Prod.mk.inj h3.2).1
    exact ⟨by rw [h4, hidx], h3.1⟩
  · intro hw
    obtain ⟨h1, h2⟩ := autoCompleteLoop_no_walk env _ _ _ _ _ _ _ _ hw hloop
    exact ⟨h2, h1⟩
  · rcases hcases with h | h <;> omega
  · rcases hcases with h | h <;> omega
  · intro sel index source hsrc
    have hon := onAutoCompleted_state env r.t cursor (hraw ▸ hc) hcur last hlast
      (cursor - last.length) (hraw ▸ hk) sel index source hsrc
    rw [hraw] at hon
    exact hon
  · intro hS hnl hplain hstart
    have hsp : env.Split (text.take cursor) =
        (((text.take (cursor - last.length)).foldl lexStep lexInit).words ++ [last], none) := by
      rw [← hsplit, hS]
      exact shlexSplit_append_plain _ last hstart hnl hplain
    refine ⟨hsp, ?_⟩
    rw [htok, hsp]
    have hb : HasSuffix (text.take cursor) [' '] = false := by
      rw [← hsplit]
      exact HasSuffix_blank_plain _ last hnl hplain
    rw [hb]
    rfl

/-- C18 for the chain `move` over `x`, `y`, `z` at the texts `"move x"`, where
the walk reaches the last token, and `"bogus x"`, where it does not. -/
theorem offset_of_suffix_witness :
    moveXResult.menuOffset = 6 - 1 ∧
      moveXResult.t.OnAutoCompleted stdEnv "y".toList 0 1 = some (true, "move y".toList, 6) ∧
      stdEnv.Split ("move x".toList.take 6) = (["move".toList, "x".toList], none) ∧
      bogusXResult.menuOffset = 0 ∧
      bogusXResult.t.OnAutoCompleted stdEnv "y".toList 0 1 = some (true, "bogus y".toList, 7) :=
  have h := offset_of_suffix stdEnv (moveChain 1 "axis".toList none none none) "move x".toList 6
    [] moveXResult rfl rfl (by decide) "x".toList rfl (by decide)
  have g := offset_of_suffix stdEnv (moveChain 1 "axis".toList none none none) "bogus x".toList 7
    [] bogusXResult rfl rfl (by decide) "x".toList rfl (by decide)
  ⟨(h.1 _ _ rfl).1, h.2.2.2.2.2.1 "y".toList 0 1 (by decide),
    (h.2.2.2.2.2.2 rfl (by decide) (by decide) (by decide)).1,
    (g.2.1 rfl).1, g.2.2.2.2.2.1 "y".toList 0 1 (by decide)⟩

end Clipper
